import Mathlib

/-!
Shallow embedding of the westex economy-simulation engine
(`engines/economy`), covering the entity model, the production package
(worker allocation, production calculation, wage settlement, resource
consumption and regeneration), the need-matching product market, and the
tick orchestrator, together with proofs of the specification claims.

Modelling conventions:
* Go `float32`/`float64` money, quantities and rates are embedded as `ℚ`
  (exact arithmetic).
* Go pointers to `Resource` objects are shared mutable state; they are
  modelled by a store `qty : Nat → ℚ` keyed by the resource's `ID`
  (`entities.Resource` carries an auto-incremented unique `ID`).  Lists of
  resources hold the immutable part (`ResRef`).
* Go pointers to `Person`/`Industry` objects held in the region's slices
  are modelled by list indices; mutation is in-place list update.
* Go's `map`-based deduplication in `Person.GetAllProblems` iterates in
  unspecified order; it is modelled deterministically by first-occurrence
  deduplication on the problem name.
-/

namespace Westex

/-- Immutable part of `entities.Resource`: the auto-assigned `ID`, the
`IsFree` flag and the per-tick `RegenerationRate`.  The mutable
`Quantity` field lives in the region-wide store `Region.qty`. -/
structure ResRef where
  id : Nat
  isFree : Bool
  regenerationRate : ℚ
deriving Repr, DecidableEq, Inhabited

/-- `entities.Problem`: a modeled population need. -/
structure Problem where
  id : Nat
  name : String
  severity : ℚ
deriving Repr, DecidableEq, Inhabited

/-- `entities.PopulationSegment`: a named cohort sharing a problem set. -/
structure Segment where
  name : String
  problems : List Problem
deriving Repr, DecidableEq, Inhabited

/-- `entities.Person`: name, money, labor hours and segment memberships. -/
structure Person where
  name : String
  money : ℚ
  laborHours : ℚ
  segments : List Segment
deriving Repr, DecidableEq, Inhabited

/-- `entities.Industry`: solved problems, input/output resources, labor
need and treasury. -/
structure Industry where
  name : String
  ownedProblems : List Problem
  inputResources : List ResRef
  outputProducts : List ResRef
  laborNeeded : ℚ
  money : ℚ
deriving Repr, DecidableEq, Inhabited

/-- `entities.Region` together with the shared mutable quantity store for
every resource object (keyed by resource id). -/
structure Region where
  name : String
  industries : List Industry
  people : List Person
  resources : List ResRef
  segments : List Segment
  qty : Nat → ℚ

/-- Point update of the resource-quantity store. -/
def updQty (q : Nat → ℚ) (i : Nat) (v : ℚ) : Nat → ℚ :=
  fun j => if j = i then v else q j

/-- In-place update of the `i`-th element of a list (a Go slice-element
mutation through a pointer). -/
def modifyAt (f : α → α) : Nat → List α → List α
  | _, [] => []
  | 0, a :: as => f a :: as
  | n + 1, a :: as => a :: modifyAt f n as

/-- First-occurrence deduplication by problem name: deterministic model of
the `map[string]*Problem` deduplication in `Person.GetAllProblems`. -/
def dedupByName : List Problem → List String → List Problem
  | [], _ => []
  | p :: rest, seen =>
    if seen.contains p.name then dedupByName rest seen
    else p :: dedupByName rest (p.name :: seen)

/-- `Person.GetAllProblems`: the union of the problem sets of all segments
the person belongs to, deduplicated by name. -/
def getAllProblems (p : Person) : List Problem :=
  dedupByName (p.segments.flatMap (·.problems)) []

/-- Whether a person belongs to a segment named `Workers`
(the membership test inside `Engine.getAvailableWorkers`). -/
def isWorker (p : Person) : Bool :=
  p.segments.any (fun s => s.name == "Workers")

/-- `Engine.getAvailableWorkers`: indices (pointer identities) of all
people belonging to the `Workers` population segment, in region order;
empty when the region has no segment named `Workers`. -/
def getAvailableWorkers (r : Region) : List Nat :=
  if r.segments.any (fun s => s.name == "Workers") then
    (r.people.enum.filter (fun ip => isWorker ip.2)).map (·.1)
  else []

/-- Go's `int(x)` conversion of a `float32`: truncation toward zero. -/
def ratTrunc (q : ℚ) : ℤ :=
  q.num.tdiv (q.den : ℤ)

/-- `production.AllocateWorkers`: take `min(int(laborNeeded), len(pool))`
workers from the front of the pool; empty if that count is `≤ 0`. -/
def allocateWorkers (laborNeeded : ℚ) (availableWorkers : List α) : List α :=
  let needed : ℤ := ratTrunc laborNeeded
  let available : ℤ := availableWorkers.length
  let count : ℤ := if available < needed then available else needed
  if count ≤ 0 then [] else availableWorkers.take count.toNat

/-- `production.ProductionResult`. -/
structure ProductionResult where
  unitsProduced : ℚ
  laborUsed : ℚ
  laborCost : ℚ
  resourceCost : ℚ
  totalCost : ℚ
  costPerUnit : ℚ
deriving Repr, DecidableEq, Inhabited

/-- `production.calculateResourceCost`: each non-free input costs `1.0`
per unit consumed (1:1 input:output ratio), free inputs cost `0`. -/
def calculateResourceCost (ind : Industry) (unitsProduced : ℚ) : ℚ :=
  ind.inputResources.foldl
    (fun total input =>
      total + unitsProduced * (if input.isFree then 0 else 1)) 0

/-- `production.CalculateProduction`: pure derivation of achievable output
and costs from allocated labor, available hours and the wage rate.  The
division guard mirrors the source: the production rate is overwritten
with `0` when `laborNeeded == 0`. -/
def calculateProduction (ind : Industry) (availableLabor availableHours wageRate : ℚ) :
    ProductionResult :=
  let laborNeeded := ind.laborNeeded
  let laborUsed := if availableLabor < laborNeeded then availableLabor else laborNeeded
  let productionRate := if laborNeeded = 0 then 0 else laborUsed / laborNeeded
  let unitsProduced := productionRate * availableHours
  let laborCost := laborUsed * wageRate * availableHours
  let resourceCost := calculateResourceCost ind unitsProduced
  let totalCost := laborCost + resourceCost
  let costPerUnit := if 0 < unitsProduced then totalCost / unitsProduced else 0
  { unitsProduced := unitsProduced
    laborUsed := laborUsed
    laborCost := laborCost
    resourceCost := resourceCost
    totalCost := totalCost
    costPerUnit := costPerUnit }

/-- `production.LaborPayment`. -/
structure LaborPayment where
  personName : String
  industryName : String
  hoursWorked : ℚ
  wageRate : ℚ
  totalPaid : ℚ
deriving Repr, DecidableEq, Inhabited

/-- The payment loop of `production.PayWorkers`: deduct each worker's wage
from the industry treasury, credit the worker, record one payment per
worker.  Workers are list indices into `people`. -/
def payLoop (industryName : String) (h w : ℚ) :
    List Nat → List Person → ℚ → List Person × ℚ × List LaborPayment
  | [], people, m => (people, m, [])
  | i :: rest, people, m =>
    let wages := h * w
    let name := (people.getD i default).name
    let people' := modifyAt (fun p => { p with money := p.money + wages }) i people
    let out := payLoop industryName h w rest people' (m - wages)
    (out.1, out.2.1, ⟨name, industryName, h, w, wages⟩ :: out.2.2)

/-- `production.PayWorkers`: all-or-nothing wage settlement.  Computes the
total wage bill (the source sums `hoursPerWorker * wageRate` once per
worker; in exact arithmetic that is `workers.length` times the product),
fails (returning `none`, with no state change observed by the caller)
when the industry treasury cannot cover it, otherwise pays each worker in
order. -/
def payWorkers (industryName : String) (people : List Person) (industryMoney : ℚ)
    (workers : List Nat) (hoursPerWorker wageRate : ℚ) :
    Option (List Person × ℚ × List LaborPayment) :=
  let totalWages : ℚ := workers.length * (hoursPerWorker * wageRate)
  if industryMoney < totalWages then none
  else some (payLoop industryName hoursPerWorker wageRate workers people industryMoney)

/-- `production.ResourceConsumption`. -/
structure ResourceConsumption where
  resourceId : Nat
  quantity : ℚ
  cost : ℚ
deriving Repr, DecidableEq, Inhabited

/-- `production.ConsumeResources`: sequentially check and decrement each
declared input (1:1 input:output ratio).  On an insufficient input the
loop stops and returns `none` for the consumption list, but the store
keeps the decrements already performed (the source mutates in place and
returns early without compensation). -/
def consumeResources (inputs : List ResRef) (unitsToProdu : ℚ) (q : Nat → ℚ) :
    (Nat → ℚ) × Option (List ResourceConsumption) :=
  match inputs with
  | [] => (q, some [])
  | input :: rest =>
    let needed := unitsToProdu
    if q input.id < needed then (q, none)
    else
      -- `input.Consume needed` re-checks `Quantity ≥ needed`, which holds here
      let q' := updQty q input.id (q input.id - needed)
      let costPerUnit : ℚ := if input.isFree then 0 else 1
      match consumeResources rest unitsToProdu q' with
      | (q2, none) => (q2, none)
      | (q2, some cs) =>
        (q2, some (⟨input.id, needed, needed * costPerUnit⟩ :: cs))

/-- `production.RegenerateResources`: every resource with a positive
regeneration rate gains that rate once. -/
def regenerateResources (resources : List ResRef) (q : Nat → ℚ) : Nat → ℚ :=
  resources.foldl
    (fun q r =>
      if 0 < r.regenerationRate then updQty q r.id (q r.id + r.regenerationRate)
      else q) q

/-- `market.Purchase` (the current market, keyed by entity ids; person and
industry pointer identities are modelled by their region list indices). -/
structure Purchase where
  personIdx : Nat
  industryIdx : Nat
  productId : Nat
  problemId : Nat
  quantity : ℚ
  unitPrice : ℚ
  totalCost : ℚ
deriving Repr, DecidableEq, Inhabited

/-- `market.MarketResult`. -/
structure MarketResult where
  purchases : List Purchase
  totalSpent : ℚ
  totalRevenue : ℚ
  peopleSatisfied : Nat
  peopleUnsatisfied : Nat
deriving Repr, DecidableEq, Inhabited

/-- `market.findIndustryForProblem`: the first industry (in region order)
owning a problem with the given problem's id. -/
def findIndustryForProblem (industries : List Industry) (problem : Problem) : Option Nat :=
  match industries with
  | [] => none
  | ind :: rest =>
    if ind.ownedProblems.any (fun p => p.id == problem.id) then some 0
    else (findIndustryForProblem rest problem).map (· + 1)

/-- `market.attemptPurchase`: buy exactly 1 unit of the industry's first
output product, provided the industry has any products, the product
quantity is at least 1, and the person can afford the unit price.  On
success the price moves from the person to the industry and the product
quantity drops by 1 (`product.Consume 1`, whose internal check holds). -/
def attemptPurchase (r : Region) (personIdx industryIdx : Nat) (need : Problem)
    (pricePerUnit : ℚ) : Region × Option Purchase :=
  let ind := r.industries.getD industryIdx default
  match ind.outputProducts with
  | [] => (r, none)
  | product :: _ =>
    if r.qty product.id < 1 then (r, none)
    else if (r.people.getD personIdx default).money < pricePerUnit then (r, none)
    else
      let quantity : ℚ := 1
      let cost := pricePerUnit * quantity
      let people' := modifyAt (fun p => { p with money := p.money - cost }) personIdx r.people
      let industries' := modifyAt (fun i => { i with money := i.money + cost }) industryIdx r.industries
      let q' := updQty r.qty product.id (r.qty product.id - quantity)
      ({ r with people := people', industries := industries', qty := q' },
       some ⟨personIdx, industryIdx, product.id, need.id, quantity, pricePerUnit, cost⟩)

/-- One iteration of the need loop in `market.ProcessProductMarket`: find
the first industry solving the need and attempt a single purchase. -/
def marketNeedStep (pricePerUnit : ℚ) (personIdx : Nat) (r : Region) (need : Problem) :
    Region × Option Purchase :=
  match findIndustryForProblem r.industries need with
  | none => (r, none)
  | some j => attemptPurchase r personIdx j need pricePerUnit

/-- The need loop of one person in `market.ProcessProductMarket`:
process the needs in order, collecting successful purchases. -/
def marketPersonLoop (pricePerUnit : ℚ) (personIdx : Nat) :
    List Problem → Region → List Purchase → Region × List Purchase
  | [], r, acc => (r, acc)
  | need :: rest, r, acc =>
    let out := marketNeedStep pricePerUnit personIdx r need
    match out.2 with
    | none => marketPersonLoop pricePerUnit personIdx rest out.1 acc
    | some pur => marketPersonLoop pricePerUnit personIdx rest out.1 (acc ++ [pur])

/-- The per-person body of `market.ProcessProductMarket`: try to satisfy
each deduplicated need of the person once. -/
def marketPerson (r : Region) (personIdx : Nat) (pricePerUnit : ℚ) :
    Region × List Purchase :=
  marketPersonLoop pricePerUnit personIdx
    (getAllProblems (r.people.getD personIdx default)) r []

/-- The person loop of `market.ProcessProductMarket`, accumulating the
tick's `MarketResult`. -/
def marketLoop (pricePerUnit : ℚ) :
    List Nat → Region → MarketResult → Region × MarketResult
  | [], r, res => (r, res)
  | i :: rest, r, res =>
    let pp := marketPerson r i pricePerUnit
    marketLoop pricePerUnit rest pp.1
      { purchases := res.purchases ++ pp.2
        totalSpent := res.totalSpent + (pp.2.map (·.totalCost)).sum
        totalRevenue := res.totalRevenue + (pp.2.map (·.totalCost)).sum
        peopleSatisfied := res.peopleSatisfied + (if pp.2.isEmpty then 0 else 1)
        peopleUnsatisfied := 0 }

/-- `market.ProcessProductMarket`: run the need-matching loop for every
person; track aggregate spend/revenue and the number of distinct people
with at least one successful purchase (`satisfiedPeople` keyed by person
identity) versus the rest. -/
def processProductMarket (r : Region) (pricePerUnit : ℚ) : Region × MarketResult :=
  let n := r.people.length
  let out := marketLoop pricePerUnit (List.range n) r
    { purchases := [], totalSpent := 0, totalRevenue := 0,
      peopleSatisfied := 0, peopleUnsatisfied := 0 }
  (out.1, { out.2 with peopleUnsatisfied := n - out.2.peopleSatisfied })

/-- The linear name scan of the wage-refund loop (`for _, person :=
range e.Region.People` with a `break` on the first name match): index of
the first person carrying the given name. -/
def findIdxName (s : String) : List Person → Option Nat
  | [] => none
  | p :: rest => if p.name == s then some 0 else (findIdxName s rest).map (· + 1)

/-- The wage-reversal loop of `Engine.processProductionPhase`: for each
recorded payment, debit the first person in the region whose name matches
the payment record and re-credit the industry; a payment whose name
matches nobody is silently skipped. -/
def refundLoop : List LaborPayment → List Person → ℚ → List Person × ℚ
  | [], people, m => (people, m)
  | pay :: rest, people, m =>
    match findIdxName pay.personName people with
    | none => refundLoop rest people m
    | some j =>
      refundLoop rest
        (modifyAt (fun p => { p with money := p.money - pay.totalPaid }) j people)
        (m + pay.totalPaid)

/-- One industry iteration of `Engine.processProductionPhase`.  Returns the
updated region, the (possibly advanced) worker pool, and as observations
the allocated workers and whether the industry committed output.  The pool
is advanced only at the end of a fully successful iteration; every
failure path (`continue` in the source) leaves it untouched.  Logging and
the bounded production-history record (`RecordProduction`) are omitted:
they touch no state any claim is about. -/
def processIndustry (r : Region) (pool : List Nat) (idx : Nat)
    (hoursAvailable wageRate : ℚ) : Region × List Nat × List Nat × Bool :=
  let ind := r.industries.getD idx default
  let workers := allocateWorkers ind.laborNeeded pool
  if workers.length = 0 then (r, pool, workers, false)
  else
    let result := calculateProduction ind (workers.length : ℚ) hoursAvailable wageRate
    match payWorkers ind.name r.people ind.money workers hoursAvailable wageRate with
    | none => (r, pool, workers, false)
    | some (people1, money1, payments) =>
      let r1 := { r with
        people := people1
        industries := modifyAt (fun i => { i with money := money1 }) idx r.industries }
      match consumeResources ind.inputResources result.unitsProduced r1.qty with
      | (q1, none) =>
        let ref := refundLoop payments r1.people money1
        let r2 := { r1 with
          qty := q1
          people := ref.1
          industries := modifyAt (fun i => { i with money := ref.2 }) idx r1.industries }
        (r2, pool, workers, false)
      | (q1, some _) =>
        let q2 := ind.outputProducts.foldl
          (fun q prod => updQty q prod.id (q prod.id + result.unitsProduced)) q1
        ({ r1 with qty := q2 }, pool.drop workers.length, workers, true)

/-- The industry loop of `Engine.processProductionPhase`, iterating the
region's industries in order and threading the shrinking worker pool.
Also returns, as observations, each industry's allocated workers and
success flag. -/
def productionLoop (hoursAvailable wageRate : ℚ) :
    List Nat → Region → List Nat → Region × List Nat × List (List Nat) × List Bool
  | [], r, pool => (r, pool, [], [])
  | idx :: rest, r, pool =>
    let step := processIndustry r pool idx hoursAvailable wageRate
    let out := productionLoop hoursAvailable wageRate rest step.1 step.2.1
    (out.1, out.2.1, step.2.2.1 :: out.2.2.1, step.2.2.2 :: out.2.2.2)

/-- `Engine.processProductionPhase`: build the worker pool once, then
process every industry in region order. -/
def processProductionPhase (r : Region) (hoursAvailable wageRate : ℚ) :
    Region × List Nat × List (List Nat) × List Bool :=
  productionLoop hoursAvailable wageRate (List.range r.industries.length) r
    (getAvailableWorkers r)

/-- `Engine.processTick` (current engine, `engine_new`): production phase,
then the product market at the fixed price `50.0`, then resource
regeneration over the region's registered resources.  The person field
`laborHours` is never read or written by this tick. -/
def processTick (r : Region) (wagePerHour : ℚ) (weeksPerTick : ℕ) (hoursPerWeek : ℚ) :
    Region :=
  let hoursAvailable := (weeksPerTick : ℚ) * hoursPerWeek
  let r1 := (processProductionPhase r hoursAvailable wagePerHour).1
  let r2 := (processProductMarket r1 50).1
  { r2 with qty := regenerateResources r2.resources r2.qty }

/-- `Engine.resetLaborHours` (legacy engine): reset every person's labor
hours to the standard 8-hour workday. -/
def resetLaborHours (r : Region) : Region :=
  { r with people := r.people.map (fun p => { p with laborHours := 8 }) }

/-- Total money in the system: industry treasuries plus person money
(the aggregate-wealth sum of `printFinalSummary`). -/
def totalMoney (r : Region) : ℚ :=
  (r.industries.map (·.money)).sum + (r.people.map (·.money)).sum

/-- Reference fold used to describe the store a failed consumption leaves
behind: unconditionally decrement each listed input by `u`. -/
def consumeAll (inputs : List ResRef) (u : ℚ) (q : Nat → ℚ) : Nat → ℚ :=
  inputs.foldl (fun q input => updQty q input.id (q input.id - u)) q

/-- The shape of a region preserved by every tick operation: person
names, labor hours and segment memberships, the people and industry
counts, and the static resource and segment lists. -/
def SameShape (r r' : Region) : Prop :=
  r'.people.map (·.name) = r.people.map (·.name) ∧
  r'.people.map (·.laborHours) = r.people.map (·.laborHours) ∧
  r'.people.map (·.segments) = r.people.map (·.segments) ∧
  r'.people.length = r.people.length ∧
  r'.industries.length = r.industries.length ∧
  r'.resources = r.resources ∧
  r'.segments = r.segments

/-- All region quantities, treasuries and personal balances are
non-negative. -/
def NonNeg (r : Region) : Prop :=
  (∀ j, 0 ≤ r.qty j) ∧ (∀ ind ∈ r.industries, 0 ≤ ind.money) ∧
    (∀ p ∈ r.people, 0 ≤ p.money)

/-- Region used in the C8 witness: one industry with a 10000 treasury,
one declared input (id 5, empty store), one worker named `W`. -/
def rC8 : Region :=
  ⟨"R", [⟨"I", [], [⟨5, false, 0⟩], [], 1, 10000⟩],
   [⟨"W", 100, 8, [⟨"Workers", []⟩]⟩], [], [⟨"Workers", []⟩], fun _ => 0⟩

/-- Region used in the C1 witness: two industries (one not affordable,
one successful), two people, shared input resource, active market. -/
def rC1 : Region :=
  ⟨"R", [⟨"A", [⟨1, "Food", 1⟩], [⟨7, false, 0⟩], [⟨8, false, 0⟩], 1, 50000⟩],
   [⟨"W1", 100, 8, [⟨"Workers", []⟩, ⟨"Gen", [⟨1, "Food", 1⟩]⟩]⟩,
    ⟨"W2", 30, 8, [⟨"Gen", [⟨1, "Food", 1⟩]⟩]⟩],
   [⟨7, false, 3⟩], [⟨"Workers", []⟩, ⟨"Gen", [⟨1, "Food", 1⟩]⟩],
   fun j => if j = 7 then 1000 else 0⟩

/-- Region used for the C6 counterexample and witness: two industries
both solving problem 1, one person with 100 money, both products in
stock, market price 50. -/
def rC6 : Region :=
  ⟨"R", [⟨"A", [⟨1, "Food", 1⟩], [], [⟨10, false, 0⟩], 1, 0⟩,
         ⟨"B", [⟨1, "Food", 1⟩], [], [⟨11, false, 0⟩], 1, 0⟩],
   [⟨"M", 100, 8, [⟨"Gen", [⟨1, "Food", 1⟩]⟩]⟩],
   [], [⟨"Gen", [⟨1, "Food", 1⟩]⟩],
   fun j => if j = 10 then 5 else if j = 11 then 5 else 0⟩

/-- Region for the C7 counterexample: industry `A` cannot afford its
wage bill, so its allocated worker is NOT removed from the pool and is
allocated again to industry `B`. -/
def rC7 : Region :=
  ⟨"R", [⟨"A", [], [], [], 1, 0⟩, ⟨"B", [], [], [], 1, 100000⟩],
   [⟨"W", 0, 8, [⟨"Workers", []⟩]⟩], [], [⟨"Workers", []⟩], fun _ => 0⟩

/-- Region for the C7 witness: a single affordable industry, so every
iteration succeeds. -/
def rC7b : Region :=
  ⟨"R", [⟨"B", [], [], [], 1, 100000⟩],
   [⟨"W", 0, 8, [⟨"Workers", []⟩]⟩], [], [⟨"Workers", []⟩], fun _ => 0⟩

/-- Region for the C9 counterexample: one person entering the tick with
3 labor-hours instead of the standard 8. -/
def rC9 : Region := ⟨"R", [], [⟨"P", 0, 3, []⟩], [], [], fun _ => 0⟩

/- `Rat.mul`, `Rat.add`, `Rat.sub` and `Rat.inv` are `@[irreducible]` in
Batteries, which blocks kernel evaluation of concrete rational arithmetic
inside `decide`; restore the default reducibility for the rest of this
development (this changes no definition and no proof term, only what the
elaborator is willing to unfold). -/
attribute [local semireducible] Rat.mul Rat.add Rat.sub Rat.inv

section ListLemmas

variable {α : Type _} {β : Type _}

theorem modifyAt_nil (f : α → α) (n : Nat) : modifyAt f n ([] : List α) = [] := by
  cases n <;> rfl

theorem modifyAt_length (f : α → α) (n : Nat) (l : List α) :
    (modifyAt f n l).length = l.length := by
  induction l generalizing n with
  | nil => simp [modifyAt_nil]
  | cons a as ih =>
    cases n with
    | zero => rfl
    | succ n => simp [modifyAt, ih]

theorem getD_modifyAt_self (f : α → α) (n : Nat) (l : List α) (d : α)
    (h : n < l.length) : (modifyAt f n l).getD n d = f (l.getD n d) := by
  induction l generalizing n with
  | nil => simp at h
  | cons a as ih =>
    cases n with
    | zero => rfl
    | succ n => simpa [modifyAt] using ih n (by simpa using h)

theorem getD_modifyAt_ne (f : α → α) (i j : Nat) (l : List α) (d : α)
    (h : i ≠ j) : (modifyAt f i l).getD j d = l.getD j d := by
  induction l generalizing i j with
  | nil => simp [modifyAt_nil]
  | cons a as ih =>
    cases i with
    | zero =>
      cases j with
      | zero => exact absurd rfl h
      | succ j => rfl
    | succ i =>
      cases j with
      | zero => rfl
      | succ j => simpa [modifyAt] using ih i j (by omega)

theorem modifyAt_of_le_length (f : α → α) (n : Nat) (l : List α)
    (h : l.length ≤ n) : modifyAt f n l = l := by
  induction l generalizing n with
  | nil => simp [modifyAt_nil]
  | cons a as ih =>
    cases n with
    | zero => simp at h
    | succ n => simp [modifyAt, ih n (by simpa using h)]

theorem map_modifyAt_of_comp (g : α → β) (f : α → α)
    (hgf : ∀ a, g (f a) = g a) (n : Nat) (l : List α) :
    (modifyAt f n l).map g = l.map g := by
  induction l generalizing n with
  | nil => simp [modifyAt_nil]
  | cons a as ih =>
    cases n with
    | zero => simp [modifyAt, hgf]
    | succ n => simp [modifyAt, ih]

theorem sum_map_modifyAt (g : α → ℚ) (f : α → α) (d : ℚ)
    (hf : ∀ a, g (f a) = g a + d) (n : Nat) (l : List α) (h : n < l.length) :
    ((modifyAt f n l).map g).sum = (l.map g).sum + d := by
  induction l generalizing n with
  | nil => simp at h
  | cons a as ih =>
    cases n with
    | zero => simp [modifyAt, hf]; ring
    | succ n =>
      have := ih n (by simpa using h)
      simp [modifyAt, this]; ring

theorem modifyAt_modifyAt_same (f g : α → α) (n : Nat) (l : List α) :
    modifyAt f n (modifyAt g n l) = modifyAt (fun a => f (g a)) n l := by
  induction l generalizing n with
  | nil => simp [modifyAt_nil]
  | cons a as ih =>
    cases n with
    | zero => rfl
    | succ n => simp [modifyAt, ih]

theorem modifyAt_comm (f g : α → α) (i j : Nat) (h : i ≠ j) (l : List α) :
    modifyAt f i (modifyAt g j l) = modifyAt g j (modifyAt f i l) := by
  induction l generalizing i j with
  | nil => simp [modifyAt_nil]
  | cons a as ih =>
    cases i with
    | zero =>
      cases j with
      | zero => exact absurd rfl h
      | succ j => rfl
    | succ i =>
      cases j with
      | zero => rfl
      | succ j => simp [modifyAt, ih i j (by omega)]

theorem modifyAt_eq_self (f : α → α) (n : Nat) (l : List α) (d : α)
    (h : f (l.getD n d) = l.getD n d) : modifyAt f n l = l := by
  induction l generalizing n with
  | nil => simp [modifyAt_nil]
  | cons a as ih =>
    cases n with
    | zero => simpa [modifyAt] using h
    | succ n => simp [modifyAt]; exact ih n h

theorem foldl_add_eq_sum (g : α → ℚ) (l : List α) (a : ℚ) :
    l.foldl (fun total x => total + g x) a = a + (l.map g).sum := by
  induction l generalizing a with
  | nil => simp
  | cons x xs ih => simp [ih]; ring

end ListLemmas

theorem updQty_self (q : Nat → ℚ) (i : Nat) (v : ℚ) : updQty q i v i = v := by
  simp [updQty]

theorem updQty_ne (q : Nat → ℚ) (i j : Nat) (v : ℚ) (h : j ≠ i) :
    updQty q i v j = q j := by
  simp [updQty, h]

/-- `Rat.den = 1` means the rational is an integer; a non-integer labor
need has `den ≠ 1`.  For non-negative rationals Go's truncation agrees
with the floor. -/
theorem ratTrunc_eq_floor (q : ℚ) (h : 0 ≤ q) : ratTrunc q = ⌊q⌋ := by
  rw [ratTrunc, Int.tdiv_eq_ediv (by exact_mod_cast Rat.num_nonneg.2 h) (by positivity),
    Rat.floor_def]

/-- `calculateResourceCost` as a sum over the declared inputs. -/
theorem calculateResourceCost_eq (ind : Industry) (u : ℚ) :
    calculateResourceCost ind u
      = (ind.inputResources.map (fun input => u * (if input.isFree then 0 else 1))).sum := by
  unfold calculateResourceCost
  simpa using foldl_add_eq_sum (fun input => u * (if input.isFree then 0 else 1))
    ind.inputResources 0

/-- Go's `min` helper in `calculator.go` agrees with `min`. -/
theorem goMin_eq_min (a b : ℚ) : (if a < b then a else b) = min a b := by
  rcases lt_or_ge a b with h | h
  · simp [h, min_eq_left h.le]
  · simp [not_lt.2 h, min_eq_right h]

/-- Claim C5: `CalculateProduction` is a pure calculation with
`laborUsed = min(allocatedLabor, laborNeeded)`,
`capacityRatio = laborUsed / laborNeeded` guarded to `0` at
`laborNeeded = 0`, `unitsProduced = capacityRatio × availableHours`,
`laborCost = laborUsed × wageRate × availableHours`,
`totalCost = laborCost + resourceCost` and
`costPerUnit = totalCost / unitsProduced` when positive, else `0`;
on the example `laborNeeded=10, allocated=5, wageRate=10,
hoursAvailable=40` it yields `laborUsed=5`, `unitsProduced=20`,
`laborCost=2000`.  (In the embedding the function is pure by
construction: it only reads the industry and returns a fresh result.) -/
theorem C5_calculateProduction_formulas (ind : Industry)
    (availableLabor availableHours wageRate : ℚ) :
    (calculateProduction ind availableLabor availableHours wageRate).laborUsed
        = min availableLabor ind.laborNeeded ∧
    (calculateProduction ind availableLabor availableHours wageRate).unitsProduced
        = (if ind.laborNeeded = 0 then 0
           else min availableLabor ind.laborNeeded / ind.laborNeeded) * availableHours ∧
    (calculateProduction ind availableLabor availableHours wageRate).laborCost
        = min availableLabor ind.laborNeeded * wageRate * availableHours ∧
    (calculateProduction ind availableLabor availableHours wageRate).resourceCost
        = (ind.inputResources.map
            (fun input =>
              (calculateProduction ind availableLabor availableHours wageRate).unitsProduced
                * (if input.isFree then 0 else 1))).sum ∧
    (calculateProduction ind availableLabor availableHours wageRate).totalCost
        = (calculateProduction ind availableLabor availableHours wageRate).laborCost
          + (calculateProduction ind availableLabor availableHours wageRate).resourceCost ∧
    (calculateProduction ind availableLabor availableHours wageRate).costPerUnit
        = (if 0 < (calculateProduction ind availableLabor availableHours wageRate).unitsProduced
           then (calculateProduction ind availableLabor availableHours wageRate).totalCost
                / (calculateProduction ind availableLabor availableHours wageRate).unitsProduced
           else 0) ∧
    (calculateProduction ⟨"T", [], [], [], 10, 0⟩ 5 40 10).laborUsed = 5 ∧
    (calculateProduction ⟨"T", [], [], [], 10, 0⟩ 5 40 10).unitsProduced = 20 ∧
    (calculateProduction ⟨"T", [], [], [], 10, 0⟩ 5 40 10).laborCost = 2000 := by
  refine ⟨?_, ?_, ?_, ?_, ?_, ?_, by decide, by decide, by decide⟩ <;>
    simp [calculateProduction, goMin_eq_min, calculateResourceCost_eq]

/-- Length of the list returned by `AllocateWorkers`, for a non-negative
labor need covered by the pool. -/
theorem allocateWorkers_length_of_le {α : Type _} (L : ℚ) (pool : List α)
    (h0 : 0 ≤ L) (hpool : ⌊L⌋.toNat ≤ pool.length) :
    (allocateWorkers L pool).length = ⌊L⌋.toNat := by
  have htr : ratTrunc L = ⌊L⌋ := ratTrunc_eq_floor L h0
  have hfl : 0 ≤ ⌊L⌋ := Int.floor_nonneg.2 h0
  have hav : ⌊L⌋ ≤ (pool.length : ℤ) := by
    rw [← Int.toNat_of_nonneg hfl]; exact_mod_cast hpool
  unfold allocateWorkers
  rw [htr]
  dsimp only
  rw [if_neg (not_lt.2 hav)]
  rcases eq_or_lt_of_le hfl with h | h
  · rw [if_pos (by omega)]
    simp [← h]
  · rw [if_neg (by omega)]
    simp [List.length_take]
    omega

/-- Claim C10: a fractional labor need is truncated by `AllocateWorkers`:
with `laborNeeded` non-negative and non-integer and a pool of at least
`⌊laborNeeded⌋` workers, exactly `⌊laborNeeded⌋` workers are allocated,
and `CalculateProduction` on that count gives
`capacityRatio = ⌊laborNeeded⌋ / laborNeeded < 1` and
`unitsProduced < availableHours` (for positive available hours), so full
capacity is unreachable for a non-integer labor need. -/
theorem C10_fractional_laborNeed_truncated (ind : Industry) (pool : List Nat)
    (availableHours wageRate : ℚ)
    (h0 : 0 ≤ ind.laborNeeded) (hfrac : ind.laborNeeded.den ≠ 1)
    (hpool : ⌊ind.laborNeeded⌋.toNat ≤ pool.length) (hh : 0 < availableHours) :
    ((allocateWorkers ind.laborNeeded pool).length : ℤ) = ⌊ind.laborNeeded⌋ ∧
    (calculateProduction ind ((allocateWorkers ind.laborNeeded pool).length : ℚ)
        availableHours wageRate).unitsProduced
      = (⌊ind.laborNeeded⌋ : ℚ) / ind.laborNeeded * availableHours ∧
    (⌊ind.laborNeeded⌋ : ℚ) / ind.laborNeeded < 1 ∧
    (calculateProduction ind ((allocateWorkers ind.laborNeeded pool).length : ℚ)
        availableHours wageRate).unitsProduced < availableHours := by
  have hfl : 0 ≤ ⌊ind.laborNeeded⌋ := Int.floor_nonneg.2 h0
  have hlen : (allocateWorkers ind.laborNeeded pool).length = ⌊ind.laborNeeded⌋.toNat :=
    allocateWorkers_length_of_le ind.laborNeeded pool h0 hpool
  have hlenZ : ((allocateWorkers ind.laborNeeded pool).length : ℤ) = ⌊ind.laborNeeded⌋ := by
    rw [hlen, Int.toNat_of_nonneg hfl]
  have hlenQ : ((allocateWorkers ind.laborNeeded pool).length : ℚ) = (⌊ind.laborNeeded⌋ : ℚ) := by
    exact_mod_cast congrArg (fun z : ℤ => (z : ℚ)) hlenZ
  have hLne : ind.laborNeeded ≠ 0 := by
    intro h
    exact hfrac (by rw [h]; exact Rat.den_zero)
  have hLpos : 0 < ind.laborNeeded := lt_of_le_of_ne h0 (Ne.symm hLne)
  have hfloor_lt : (⌊ind.laborNeeded⌋ : ℚ) < ind.laborNeeded := by
    refine lt_of_le_of_ne (Int.floor_le _) ?_
    intro h
    exact hfrac (by rw [← h]; exact Rat.den_intCast ⌊ind.laborNeeded⌋)
  have hunits :
      (calculateProduction ind ((allocateWorkers ind.laborNeeded pool).length : ℚ)
        availableHours wageRate).unitsProduced
        = (⌊ind.laborNeeded⌋ : ℚ) / ind.laborNeeded * availableHours := by
    simp [calculateProduction, hlenQ, if_pos hfloor_lt, hLne]
  have hratio : (⌊ind.laborNeeded⌋ : ℚ) / ind.laborNeeded < 1 :=
    (div_lt_one hLpos).2 hfloor_lt
  refine ⟨hlenZ, hunits, hratio, ?_⟩
  rw [hunits]
  calc (⌊ind.laborNeeded⌋ : ℚ) / ind.laborNeeded * availableHours
      < 1 * availableHours := mul_lt_mul_of_pos_right hratio hh
    _ = availableHours := one_mul _

/-- Witness for C10 at `laborNeeded = 15/2`, a pool of 8 workers and 40
available hours: 7 workers are allocated and production stays strictly
below the 40 available hours. -/
theorem C10_witness :
    ⌊mkRat 15 2⌋.toNat ≤ ([0, 1, 2, 3, 4, 5, 6, 7] : List Nat).length ∧
    ((allocateWorkers ((⟨"T", [], [], [], mkRat 15 2, 0⟩ : Industry)).laborNeeded
      [0, 1, 2, 3, 4, 5, 6, 7]).length : ℤ) = ⌊mkRat 15 2⌋ ∧
    (calculateProduction (⟨"T", [], [], [], mkRat 15 2, 0⟩ : Industry)
        ((allocateWorkers (mkRat 15 2) [0, 1, 2, 3, 4, 5, 6, 7]).length : ℚ)
        40 10).unitsProduced < 40 :=
  ⟨by decide,
   (C10_fractional_laborNeed_truncated ⟨"T", [], [], [], mkRat 15 2, 0⟩
      [0, 1, 2, 3, 4, 5, 6, 7] 40 10 (by norm_num) (by decide) (by decide)
      (by norm_num)).1,
   (C10_fractional_laborNeed_truncated ⟨"T", [], [], [], mkRat 15 2, 0⟩
      [0, 1, 2, 3, 4, 5, 6, 7] 40 10 (by norm_num) (by decide) (by decide)
      (by norm_num)).2.2.2⟩

/-- Splitting `consumeAll` at a cons. -/
theorem consumeAll_cons (input : ResRef) (rest : List ResRef) (u : ℚ) (q : Nat → ℚ) :
    consumeAll (input :: rest) u q
      = consumeAll rest u (updQty q input.id (q input.id - u)) := rfl

/-- Claim C2 (amended): `ConsumeResources` is not atomic.  When it fails
with an insufficient input, the store it leaves behind is exactly the one
obtained by decrementing, in order, every input strictly before the first
insufficient one; that insufficient input (and any id not aliased by an
earlier input) is unchanged.  In particular, when the FIRST declared
input is insufficient — e.g. a single input of quantity 5 against a
request of 10 — nothing at all is decremented. -/
theorem C2_consumeResources_failure_prefix (inputs : List ResRef) (u : ℚ) (q : Nat → ℚ)
    (hfail : (consumeResources inputs u q).2 = none) :
    ∃ k, k < inputs.length ∧
      (consumeResources inputs u q).1 = consumeAll (inputs.take k) u q ∧
      consumeAll (inputs.take k) u q (inputs.getD k default).id < u ∧
      ∀ j, (∀ input ∈ inputs.take k, input.id ≠ j) →
        (consumeResources inputs u q).1 j = q j := by
  induction inputs generalizing q with
  | nil => simp [consumeResources] at hfail
  | cons input rest ih =>
    by_cases h : q input.id < u
    · refine ⟨0, by simp, ?_, ?_, ?_⟩
      · simp [consumeResources, h, consumeAll]
      · simpa [consumeAll] using h
      · intro j _
        simp [consumeResources, h]
    · rcases hsub : consumeResources rest u (updQty q input.id (q input.id - u)) with ⟨q2, o⟩
      cases o with
      | some cs =>
        exfalso
        simp [consumeResources, h, hsub] at hfail
      | none =>
        have hfail2 : (consumeResources rest u (updQty q input.id (q input.id - u))).2 = none := by
          rw [hsub]
        have hres : consumeResources (input :: rest) u q = (q2, none) := by
          simp [consumeResources, h, hsub]
        obtain ⟨k, hk, h1, h2, h3⟩ := ih _ hfail2
        refine ⟨k + 1, by simpa using Nat.succ_lt_succ hk, ?_, ?_, ?_⟩
        · rw [hres]
          rw [List.take_succ_cons, consumeAll_cons]
          rw [hsub] at h1
          exact h1
        · rw [List.take_succ_cons, consumeAll_cons]
          simpa using h2
        · intro j hj
          have hji : input.id ≠ j := hj input (by simp)
          have hjr : ∀ x ∈ rest.take k, x.id ≠ j := by
            intro x hx
            exact hj x (by simp [List.take_succ_cons, hx])
          rw [hres]
          show q2 j = q j
          have h4 := h3 j hjr
          rw [hsub] at h4
          simp only at h4
          rw [h4, updQty_ne _ _ _ _ (fun e => hji e.symm)]

/-- Claim C2 counterexample: an industry with two declared inputs, the
first holding 10 units (id 1) and the second holding 5 (id 2), asked to
consume 10 units: the call fails with `InsufficientResource` on the
second input, yet the first input HAS been decremented from 10 to 0 —
refuting the claim that no input of the industry is decremented on
failure. -/
theorem C2_counterexample :
    (consumeResources [⟨1, false, 0⟩, ⟨2, false, 0⟩] 10
        (fun j => if j = 1 then 10 else if j = 2 then 5 else 0)).2 = none ∧
    (consumeResources [⟨1, false, 0⟩, ⟨2, false, 0⟩] 10
        (fun j => if j = 1 then 10 else if j = 2 then 5 else 0)).1 1 = 0 ∧
    ((0 : ℚ) ≠ 10) := by
  refine ⟨by decide, by decide, by norm_num⟩

/-- Witness for the amended C2 on the failing two-input industry, and the
claim's own single-input example: quantity 5, request 10, the call fails
and the quantity remains 5. -/
theorem C2_witness :
    ((consumeResources [⟨1, false, 0⟩] 10 (fun j => if j = 1 then 5 else 0)).2 = none ∧
     (∃ k, k < ([⟨1, false, 0⟩] : List ResRef).length ∧
       (consumeResources [⟨1, false, 0⟩] 10 (fun j => if j = 1 then 5 else 0)).1
         = consumeAll (([⟨1, false, 0⟩] : List ResRef).take k) 10
             (fun j => if j = 1 then 5 else 0) ∧
       consumeAll (([⟨1, false, 0⟩] : List ResRef).take k) 10
           (fun j => if j = 1 then 5 else 0)
           (([⟨1, false, 0⟩] : List ResRef).getD k default).id < 10 ∧
       ∀ j, (∀ input ∈ ([⟨1, false, 0⟩] : List ResRef).take k, input.id ≠ j) →
         (consumeResources [⟨1, false, 0⟩] 10 (fun j => if j = 1 then 5 else 0)).1 j
           = (if j = 1 then (5 : ℚ) else 0))) ∧
    (consumeResources [⟨1, false, 0⟩] 10 (fun j => if j = 1 then 5 else 0)).1 1 = 5 :=
  ⟨⟨by decide,
    C2_consumeResources_failure_prefix [⟨1, false, 0⟩] 10
      (fun j => if j = 1 then 5 else 0) (by decide)⟩,
   by decide⟩

/-- Names are untouched by a money-only list update. -/
theorem getD_name_modifyAt (f : Person → Person) (hf : ∀ p, (f p).name = p.name)
    (i j : Nat) (l : List Person) :
    ((modifyAt f i l).getD j default).name = (l.getD j default).name := by
  rcases eq_or_ne i j with heq | hne
  · subst heq
    rcases lt_or_ge i l.length with hlt | hge
    · rw [getD_modifyAt_self _ _ _ _ hlt, hf]
    · rw [List.getD_eq_default _ _ (by simpa [modifyAt_length] using hge),
        List.getD_eq_default _ _ hge]
  · rw [getD_modifyAt_ne _ _ _ _ _ hne]

theorem payLoop_length (n : String) (h w : ℚ) (workers : List Nat)
    (people : List Person) (m : ℚ) :
    (payLoop n h w workers people m).1.length = people.length := by
  induction workers generalizing people m with
  | nil => rfl
  | cons i rest ih => simp [payLoop, ih, modifyAt_length]

theorem payLoop_money (n : String) (h w : ℚ) (workers : List Nat)
    (people : List Person) (m : ℚ) :
    (payLoop n h w workers people m).2.1 = m - workers.length * (h * w) := by
  induction workers generalizing people m with
  | nil => simp [payLoop]
  | cons i rest ih =>
    simp [payLoop, ih]
    ring

theorem payLoop_pays (n : String) (h w : ℚ) (workers : List Nat)
    (people : List Person) (m : ℚ) :
    (payLoop n h w workers people m).2.2
      = workers.map (fun i => ⟨(people.getD i default).name, n, h, w, h * w⟩) := by
  induction workers generalizing people m with
  | nil => rfl
  | cons i rest ih =>
    have hnm : ∀ jj : Nat,
        ((modifyAt (fun p => { p with money := p.money + h * w }) i people).getD
            jj default).name
          = (people.getD jj default).name :=
      fun jj => getD_name_modifyAt (fun p => { p with money := p.money + h * w })
        (fun p => rfl) i jj people
    simp only [payLoop, ih, hnm, List.map_cons]

theorem payLoop_getD (n : String) (h w : ℚ) (workers : List Nat)
    (people : List Person) (m : ℚ) (j : Nat) (hj : j < people.length) :
    (payLoop n h w workers people m).1.getD j default
      = { people.getD j default with
          money := (people.getD j default).money + (workers.count j) * (h * w) } := by
  induction workers generalizing people m with
  | nil =>
    simp [payLoop]
  | cons i rest ih =>
    have hj2 : j < (modifyAt (fun p => { p with money := p.money + h * w }) i people).length := by
      simpa [modifyAt_length] using hj
    rcases eq_or_ne i j with rfl | hne
    · rw [payLoop, ih _ _ hj2, getD_modifyAt_self _ _ _ _ hj]
      simp [List.count_cons]
      ring
    · rw [payLoop, ih _ _ hj2, getD_modifyAt_ne _ _ _ _ _ hne]
      simp [List.count_cons, Ne.symm hne]

/-- Claim C3: `PayWorkers` is all-or-nothing.  If the treasury is below
the total wage bill `Σ(hoursPerWorker × wageRate)` the call fails and no
money moves (it returns `none` without touching any state); otherwise
exactly the total bill leaves the industry, each worker is credited
`hoursPerWorker × wageRate`, non-workers are untouched and there is one
payment record per worker. -/
theorem C3_payWorkers_all_or_nothing (industryName : String) (people : List Person)
    (m : ℚ) (workers : List Nat) (h w : ℚ)
    (hval : ∀ i ∈ workers, i < people.length) (hnd : workers.Nodup) :
    (m < workers.length * (h * w) →
      payWorkers industryName people m workers h w = none) ∧
    (¬ m < workers.length * (h * w) →
      ∃ out, payWorkers industryName people m workers h w = some out ∧
        out.2.1 = m - workers.length * (h * w) ∧
        out.2.2.length = workers.length ∧
        out.2.2 = workers.map
          (fun i => ⟨(people.getD i default).name, industryName, h, w, h * w⟩) ∧
        (∀ i ∈ workers,
          (out.1.getD i default).money = (people.getD i default).money + h * w) ∧
        (∀ j, j ∉ workers → out.1.getD j default = people.getD j default)) := by
  constructor
  · intro hlt
    simp [payWorkers, hlt]
  · intro hge
    refine ⟨payLoop industryName h w workers people m, by simp [payWorkers, hge], ?_, ?_, ?_, ?_, ?_⟩
    · exact payLoop_money industryName h w workers people m
    · rw [payLoop_pays]
      simp
    · exact payLoop_pays industryName h w workers people m
    · intro i hi
      rw [payLoop_getD industryName h w workers people m i (hval i hi)]
      have : workers.count i = 1 := List.count_eq_one_of_mem hnd hi
      simp [this]
    · intro j hj
      rcases lt_or_ge j people.length with hlt | hge2
      · rw [payLoop_getD industryName h w workers people m j hlt]
        have : workers.count j = 0 := List.count_eq_zero.2 hj
        simp [this]
      · rw [List.getD_eq_default _ _ (by simpa [payLoop_length] using hge2),
          List.getD_eq_default _ _ hge2]

/-- Witness for C3 at the claim's own example: an industry with 100 money
and one worker owed `40 × 10 = 400` fails, and `PayWorkers` returns
`none` (so neither balance changes). -/
theorem C3_witness :
    ((100 : ℚ) < (([0] : List Nat).length : ℚ) * (40 * 10)) ∧
    payWorkers "TestCorp" [⟨"Alice", 100, 8, []⟩] 100 [0] 40 10 = none :=
  ⟨by norm_num,
   (C3_payWorkers_all_or_nothing "TestCorp" [⟨"Alice", 100, 8, []⟩] 100 [0] 40 10
      (by simp) (by simp)).1 (by norm_num)⟩

/-- Ids not named among the inputs are never touched by `ConsumeResources`,
whether it succeeds or fails. -/
theorem consumeResources_untouched (inputs : List ResRef) (u : ℚ) (q : Nat → ℚ)
    (j : Nat) (hj : ∀ input ∈ inputs, input.id ≠ j) :
    (consumeResources inputs u q).1 j = q j := by
  induction inputs generalizing q with
  | nil => rfl
  | cons input rest ih =>
    have hji : input.id ≠ j := hj input (by simp)
    have hjr : ∀ x ∈ rest, x.id ≠ j := fun x hx => hj x (by simp [hx])
    by_cases h : q input.id < u
    · simp [consumeResources, h]
    · rcases hsub : consumeResources rest u (updQty q input.id (q input.id - u)) with ⟨q2, o⟩
      have hq2 : q2 j = q j := by
        have := ih (updQty q input.id (q input.id - u)) hjr
        rw [hsub] at this
        simp only at this
        rw [this, updQty_ne _ _ _ _ (fun e => hji e.symm)]
      cases o with
      | none => simp [consumeResources, h, hsub, hq2]
      | some cs => simp [consumeResources, h, hsub, hq2]

/-- The pay loop preserves the name sequence of the person list. -/
theorem payLoop_names (n : String) (h w : ℚ) (workers : List Nat)
    (people : List Person) (m : ℚ) :
    (payLoop n h w workers people m).1.map (·.name) = people.map (·.name) := by
  induction workers generalizing people m with
  | nil => rfl
  | cons i rest ih =>
    rw [payLoop, ih,
      map_modifyAt_of_comp (·.name) (fun p => { p with money := p.money + h * w })
        (fun p => rfl) i people]

/-- The refund name scan only depends on the name sequence. -/
theorem findIdxName_congr (s : String) (l₁ l₂ : List Person)
    (hmap : l₁.map (·.name) = l₂.map (·.name)) :
    findIdxName s l₁ = findIdxName s l₂ := by
  induction l₁ generalizing l₂ with
  | nil =>
    cases l₂ with
    | nil => rfl
    | cons b bs => simp at hmap
  | cons a as ih =>
    cases l₂ with
    | nil => simp at hmap
    | cons b bs =>
      simp only [List.map_cons, List.cons.injEq] at hmap
      rw [findIdxName, findIdxName, hmap.1, ih bs hmap.2]

/-- With pairwise-distinct person names, the refund scan for the name of
the `j`-th person finds exactly index `j`. -/
theorem findIdxName_self (l : List Person) (j : Nat) (hj : j < l.length)
    (hnd : (l.map (·.name)).Nodup) :
    findIdxName (l.getD j default).name l = some j := by
  induction l generalizing j with
  | nil => simp at hj
  | cons a as ih =>
    simp only [List.map_cons, List.nodup_cons] at hnd
    cases j with
    | zero => simp [findIdxName]
    | succ j =>
      have hj2 : j < as.length := by simpa using hj
      have hmem : (as.getD j default) ∈ as := by
        rw [List.getD_eq_getElem as default hj2]
        exact List.getElem_mem hj2
      have hne : (a.name == ((a :: as).getD (j + 1) default).name) = false := by
        simp only [List.getD_cons_succ]
        rw [beq_eq_false_iff_ne]
        intro he
        exact hnd.1 (he ▸ List.mem_map_of_mem (·.name) hmem)
      rw [findIdxName, List.getD_cons_succ] at *
      rw [hne]
      simp only [Bool.false_eq_true, if_false]
      rw [ih j hj2 hnd.2]
      rfl

/-- The refund loop is additive in its money accumulator. -/
theorem refundLoop_money_add (pays : List LaborPayment) (ps : List Person) (m c : ℚ) :
    refundLoop pays ps (m + c)
      = ((refundLoop pays ps m).1, (refundLoop pays ps m).2 + c) := by
  induction pays generalizing ps m with
  | nil => rfl
  | cons pay rest ih =>
    cases hfind : findIdxName pay.personName ps with
    | none => simp only [refundLoop, hfind]; exact ih ps m
    | some j =>
      simp only [refundLoop, hfind]
      have he : m + c + pay.totalPaid = (m + pay.totalPaid) + c := by ring
      rw [he, ih]

/-- An update of person `i` commutes with a refund loop none of whose
name scans resolve to `i` (for a name-preserving update). -/
theorem refundLoop_modifyAt_comm (pays : List LaborPayment) (ps : List Person)
    (m : ℚ) (i : Nat) (f : Person → Person) (hf : ∀ p, (f p).name = p.name)
    (hni : ∀ pay ∈ pays, findIdxName pay.personName ps ≠ some i) :
    refundLoop pays (modifyAt f i ps) m
      = (modifyAt f i (refundLoop pays ps m).1, (refundLoop pays ps m).2) := by
  induction pays generalizing ps m with
  | nil => rfl
  | cons pay rest ih =>
    have hmap : (modifyAt f i ps).map (·.name) = ps.map (·.name) :=
      map_modifyAt_of_comp (·.name) f hf i ps
    have hEq : findIdxName pay.personName (modifyAt f i ps)
        = findIdxName pay.personName ps :=
      findIdxName_congr pay.personName _ _ hmap
    cases hfind : findIdxName pay.personName ps with
    | none =>
      simp only [refundLoop, hEq, hfind]
      exact ih ps m (fun q hq => hni q (by simp [hq]))
    | some j =>
      have hji : j ≠ i := by
        intro e
        exact hni pay (by simp) (by rw [hfind, e])
      simp only [refundLoop, hEq, hfind]
      rw [modifyAt_comm (fun p => { p with money := p.money - pay.totalPaid }) f j i hji]
      refine ih (modifyAt (fun p => { p with money := p.money - pay.totalPaid }) j ps)
        (m + pay.totalPaid) ?_
      intro q hq
      rw [findIdxName_congr q.personName _ _
        (map_modifyAt_of_comp (·.name)
          (fun p => { p with money := p.money - pay.totalPaid }) (fun p => rfl) j ps)]
      exact hni q (by simp [hq])

/-- Paying a list of distinct, valid workers and then refunding the
recorded payments (looking each worker up by name, as the orchestrator
does) restores the person list and the industry treasury exactly —
provided person names are pairwise distinct. -/
theorem payLoop_refund_restore (n : String) (h w : ℚ) (workers : List Nat)
    (people : List Person) (m : ℚ)
    (hnames : (people.map (·.name)).Nodup)
    (hval : ∀ i ∈ workers, i < people.length) (hnd : workers.Nodup) :
    refundLoop (payLoop n h w workers people m).2.2 (payLoop n h w workers people m).1
      (payLoop n h w workers people m).2.1 = (people, m) := by
  induction workers generalizing people m with
  | nil => rfl
  | cons i rest ih =>
    have hi : i < people.length := hval i (by simp)
    have hrestval : ∀ k ∈ rest, k < people.length := fun k hk => hval k (by simp [hk])
    simp only [List.nodup_cons] at hnd
    have hlen1 : (modifyAt (fun p => { p with money := p.money + h * w }) i people).length
        = people.length :=
      modifyAt_length _ i people
    have hmap1 : (modifyAt (fun p => { p with money := p.money + h * w }) i people).map (·.name)
        = people.map (·.name) :=
      map_modifyAt_of_comp (·.name) (fun p => { p with money := p.money + h * w })
        (fun p => rfl) i people
    have houtnames :
        (payLoop n h w rest (modifyAt (fun p => { p with money := p.money + h * w }) i people)
          (m - h * w)).1.map (·.name) = people.map (·.name) := by
      rw [payLoop_names, hmap1]
    have hfind_i :
        findIdxName (people.getD i default).name
          (payLoop n h w rest (modifyAt (fun p => { p with money := p.money + h * w }) i people)
            (m - h * w)).1 = some i := by
      rw [findIdxName_congr _ _ people houtnames]
      exact findIdxName_self people i hi hnames
    have hni : ∀ pay ∈ (payLoop n h w rest
          (modifyAt (fun p => { p with money := p.money + h * w }) i people) (m - h * w)).2.2,
        findIdxName pay.personName
          (payLoop n h w rest (modifyAt (fun p => { p with money := p.money + h * w }) i people)
            (m - h * w)).1 ≠ some i := by
      intro pay hpay
      rw [payLoop_pays] at hpay
      rcases List.mem_map.1 hpay with ⟨k, hk, rfl⟩
      have hk2 : k < people.length := hrestval k hk
      have hkname :
          ((modifyAt (fun p => { p with money := p.money + h * w }) i people).getD
            k default).name = (people.getD k default).name :=
        getD_name_modifyAt (fun p => { p with money := p.money + h * w })
          (fun p => rfl) i k people
      rw [findIdxName_congr _ _ people houtnames]
      simp only [hkname]
      rw [findIdxName_self people k hk2 hnames]
      intro e
      apply hnd.1
      have hki : k = i := by simpa using e
      exact hki ▸ hk
    rw [payLoop]
    simp only [refundLoop, hfind_i]
    rw [refundLoop_modifyAt_comm _ _ _ i
      (fun p => { p with money := p.money - h * w }) (fun p => rfl) hni]
    rw [refundLoop_money_add]
    have hIH := ih (modifyAt (fun p => { p with money := p.money + h * w }) i people)
      (m - h * w) (by rw [hmap1]; exact hnames)
      (fun k hk => by rw [hlen1]; exact hrestval k hk) hnd.2
    rw [hIH]
    simp only
    refine Prod.ext ?_ ?_
    · simp only
      rw [modifyAt_modifyAt_same]
      refine modifyAt_eq_self _ i people default ?_
      have hm : (people.getD i default).money + h * w - h * w
          = (people.getD i default).money := by ring
      show ({ people.getD i default with
          money := (people.getD i default).money + h * w - h * w } : Person)
        = people.getD i default
      rw [hm]
    · simp only
      ring

/-- `AllocateWorkers` always returns a front segment of the pool. -/
theorem allocateWorkers_take {α : Type _} (L : ℚ) (pool : List α) :
    ∃ k, allocateWorkers L pool = pool.take k := by
  unfold allocateWorkers
  dsimp only
  by_cases h1 : ((pool.length : ℤ) < ratTrunc L)
  · rw [if_pos h1]
    by_cases h2 : ((pool.length : ℤ) ≤ 0)
    · rw [if_pos h2]
      exact ⟨0, by simp⟩
    · rw [if_neg h2]
      exact ⟨_, rfl⟩
  · rw [if_neg h1]
    by_cases h2 : ratTrunc L ≤ 0
    · rw [if_pos h2]
      exact ⟨0, by simp⟩
    · rw [if_neg h2]
      exact ⟨_, rfl⟩

set_option maxRecDepth 8000 in
/-- Shared analysis of the orchestrator's refund branch (workers
allocated, `PayWorkers` succeeded, resource consumption failed):
reversing the recorded payments restores every person and the industry
treasury exactly, no resource id outside the declared inputs changes,
and neither the pool nor the success flag advances. -/
theorem processIndustry_refund_spec (r : Region) (pool : List Nat) (idx : Nat)
    (hoursAvailable wageRate : ℚ)
    (hnames : (r.people.map (·.name)).Nodup)
    (hpool : ∀ i ∈ pool, i < r.people.length) (hpoolnd : pool.Nodup)
    (halloc : (allocateWorkers (r.industries.getD idx default).laborNeeded pool).length ≠ 0)
    (hpay : ¬ (r.industries.getD idx default).money
        < ((allocateWorkers (r.industries.getD idx default).laborNeeded pool).length : ℚ)
          * (hoursAvailable * wageRate))
    (hcons : (consumeResources (r.industries.getD idx default).inputResources
        (calculateProduction (r.industries.getD idx default)
          ((allocateWorkers (r.industries.getD idx default).laborNeeded pool).length : ℚ)
          hoursAvailable wageRate).unitsProduced r.qty).2 = none) :
    (processIndustry r pool idx hoursAvailable wageRate).1.people = r.people ∧
    (processIndustry r pool idx hoursAvailable wageRate).1.industries = r.industries ∧
    (∀ j : Nat,
      (∀ input ∈ (r.industries.getD idx default).inputResources, input.id ≠ j) →
      (processIndustry r pool idx hoursAvailable wageRate).1.qty j = r.qty j) ∧
    (processIndustry r pool idx hoursAvailable wageRate).2.1 = pool ∧
    (processIndustry r pool idx hoursAvailable wageRate).2.2.2 = false ∧
    (processIndustry r pool idx hoursAvailable wageRate).1.qty
      = (consumeResources (r.industries.getD idx default).inputResources
          (calculateProduction (r.industries.getD idx default)
            ((allocateWorkers (r.industries.getD idx default).laborNeeded pool).length : ℚ)
            hoursAvailable wageRate).unitsProduced r.qty).1 := by
  obtain ⟨kk, hkk⟩ := allocateWorkers_take (r.industries.getD idx default).laborNeeded pool
  have hwval : ∀ i ∈ allocateWorkers (r.industries.getD idx default).laborNeeded pool,
      i < r.people.length := by
    intro i hi
    rw [hkk] at hi
    exact hpool i (List.mem_of_mem_take hi)
  have hwnd : (allocateWorkers (r.industries.getD idx default).laborNeeded pool).Nodup := by
    rw [hkk]
    exact hpoolnd.sublist (List.take_sublist kk pool)
  have hrestore := payLoop_refund_restore (r.industries.getD idx default).name
    hoursAvailable wageRate (allocateWorkers (r.industries.getD idx default).laborNeeded pool)
    r.people (r.industries.getD idx default).money hnames hwval hwnd
  have hpayEq : payWorkers (r.industries.getD idx default).name r.people
      (r.industries.getD idx default).money
      (allocateWorkers (r.industries.getD idx default).laborNeeded pool)
      hoursAvailable wageRate
      = some (payLoop (r.industries.getD idx default).name hoursAvailable wageRate
          (allocateWorkers (r.industries.getD idx default).laborNeeded pool)
          r.people (r.industries.getD idx default).money) := by
    unfold payWorkers
    dsimp only
    rw [if_neg hpay]
  obtain ⟨q1, hq1⟩ : ∃ q1, consumeResources (r.industries.getD idx default).inputResources
      (calculateProduction (r.industries.getD idx default)
        ((allocateWorkers (r.industries.getD idx default).laborNeeded pool).length : ℚ)
        hoursAvailable wageRate).unitsProduced r.qty = (q1, none) := by
    refine ⟨(consumeResources (r.industries.getD idx default).inputResources
      (calculateProduction (r.industries.getD idx default)
        ((allocateWorkers (r.industries.getD idx default).laborNeeded pool).length : ℚ)
        hoursAvailable wageRate).unitsProduced r.qty).1, ?_⟩
    rw [← hcons]
  have hq1' : q1 = (consumeResources (r.industries.getD idx default).inputResources
      (calculateProduction (r.industries.getD idx default)
        ((allocateWorkers (r.industries.getD idx default).laborNeeded pool).length : ℚ)
        hoursAvailable wageRate).unitsProduced r.qty).1 := by
    rw [hq1]
  have hpeople := congrArg Prod.fst hrestore
  have hmoney := congrArg Prod.snd hrestore
  simp only at hpeople hmoney
  refine ⟨?_, ?_, ?_, ?_, ?_, ?_⟩
  · simp only [processIndustry, if_neg halloc, hpayEq, hq1]
    exact hpeople
  · simp only [processIndustry, if_neg halloc, hpayEq, hq1]
    rw [modifyAt_modifyAt_same]
    refine modifyAt_eq_self _ idx r.industries default ?_
    simp only
    rw [hmoney]
  · intro j hj
    simp only [processIndustry, if_neg halloc, hpayEq, hq1]
    rw [hq1']
    exact consumeResources_untouched _ _ _ j hj
  · simp only [processIndustry, if_neg halloc, hpayEq, hq1]
  · simp only [processIndustry, if_neg halloc, hpayEq, hq1]
  · simp only [processIndustry, if_neg halloc, hpayEq, hq1]

/-- Claim C8: wage settlement is reversible.  For a region with
pairwise-distinct person names and a duplicate-free pool of valid worker
indices, if `PayWorkers` succeeds and resource consumption then fails,
the orchestrator's reversal of the recorded payments restores every
person's money and the industry's treasury to exactly their values from
immediately before `PayWorkers`, and the skipped industry commits no
output that tick (no resource id outside its declared inputs changes and
its success flag is false). -/
theorem C8_wage_reversal_restores (r : Region) (pool : List Nat) (idx : Nat)
    (hoursAvailable wageRate : ℚ)
    (hnames : (r.people.map (·.name)).Nodup)
    (hpool : ∀ i ∈ pool, i < r.people.length) (hpoolnd : pool.Nodup)
    (halloc : (allocateWorkers (r.industries.getD idx default).laborNeeded pool).length ≠ 0)
    (hpay : ¬ (r.industries.getD idx default).money
        < ((allocateWorkers (r.industries.getD idx default).laborNeeded pool).length : ℚ)
          * (hoursAvailable * wageRate))
    (hcons : (consumeResources (r.industries.getD idx default).inputResources
        (calculateProduction (r.industries.getD idx default)
          ((allocateWorkers (r.industries.getD idx default).laborNeeded pool).length : ℚ)
          hoursAvailable wageRate).unitsProduced r.qty).2 = none) :
    (processIndustry r pool idx hoursAvailable wageRate).1.people = r.people ∧
    (processIndustry r pool idx hoursAvailable wageRate).1.industries = r.industries ∧
    (∀ j : Nat,
      (∀ input ∈ (r.industries.getD idx default).inputResources, input.id ≠ j) →
      (processIndustry r pool idx hoursAvailable wageRate).1.qty j = r.qty j) ∧
    (processIndustry r pool idx hoursAvailable wageRate).2.2.2 = false := by
  have h := processIndustry_refund_spec r pool idx hoursAvailable wageRate hnames hpool
    hpoolnd halloc hpay hcons
  exact ⟨h.1, h.2.1, h.2.2.1, h.2.2.2.2.1⟩

/-- Witness for C8: the worker is allocated and paid, the empty input
store makes consumption fail, and the step leaves people and industries
exactly as they were, committing nothing. -/
theorem C8_witness :
    ((rC8.people.map (·.name)).Nodup ∧
      (allocateWorkers (rC8.industries.getD 0 default).laborNeeded [0]).length ≠ 0) ∧
    (processIndustry rC8 [0] 0 160 10).1.people = rC8.people ∧
    (processIndustry rC8 [0] 0 160 10).1.industries = rC8.industries ∧
    (processIndustry rC8 [0] 0 160 10).2.2.2 = false := by
  have h := C8_wage_reversal_restores rC8 [0] 0 160 10 (by decide)
    (by decide) (by decide) (by decide) (by decide) (by decide)
  exact ⟨⟨by decide, by decide⟩, h.1, h.2.1, h.2.2.2⟩

/-- Sum change caused by an in-place update of one list element. -/
theorem sum_map_modifyAt_getD {α : Type _} [Inhabited α] (g : α → ℚ) (f : α → α)
    (n : Nat) (l : List α) (h : n < l.length) :
    ((modifyAt f n l).map g).sum
      = (l.map g).sum + (g (f (l.getD n default)) - g (l.getD n default)) := by
  induction l generalizing n with
  | nil => simp at h
  | cons a as ih =>
    cases n with
    | zero =>
      simp [modifyAt]
      ring
    | succ n =>
      have := ih n (by simpa using h)
      simp [modifyAt, this]
      ring

/-- Money entering the pay loop: the people side gains exactly the total
wage bill. -/
theorem payLoop_sum (n : String) (h w : ℚ) (workers : List Nat)
    (people : List Person) (m : ℚ) (hval : ∀ i ∈ workers, i < people.length) :
    ((payLoop n h w workers people m).1.map (·.money)).sum
      = (people.map (·.money)).sum + workers.length * (h * w) := by
  induction workers generalizing people m with
  | nil => simp [payLoop]
  | cons i rest ih =>
    rw [payLoop]
    rw [ih _ _ (fun k hk => by
      rw [modifyAt_length]
      exact hval k (by simp [hk]))]
    rw [sum_map_modifyAt (·.money) (fun p => { p with money := p.money + h * w }) (h * w)
      (fun a => rfl) i people (hval i (by simp))]
    simp only [List.length_cons]
    push_cast
    ring

theorem SameShape.refl (r : Region) : SameShape r r :=
  ⟨rfl, rfl, rfl, rfl, rfl, rfl, rfl⟩

theorem SameShape.trans {r₁ r₂ r₃ : Region}
    (h₁ : SameShape r₁ r₂) (h₂ : SameShape r₂ r₃) : SameShape r₁ r₃ :=
  ⟨h₂.1.trans h₁.1, h₂.2.1.trans h₁.2.1, h₂.2.2.1.trans h₁.2.2.1,
   h₂.2.2.2.1.trans h₁.2.2.2.1, h₂.2.2.2.2.1.trans h₁.2.2.2.2.1,
   h₂.2.2.2.2.2.1.trans h₁.2.2.2.2.2.1, h₂.2.2.2.2.2.2.trans h₁.2.2.2.2.2.2⟩

/-- A money-only update of one person keeps the region shape. -/
theorem sameShape_people_modify (r : Region) (i : Nat) (d : ℚ) :
    SameShape r { r with
      people := modifyAt (fun p => { p with money := p.money + d }) i r.people } :=
  ⟨map_modifyAt_of_comp (·.name) (fun p => { p with money := p.money + d })
     (fun _ => rfl) i r.people,
   map_modifyAt_of_comp (·.laborHours) (fun p => { p with money := p.money + d })
     (fun _ => rfl) i r.people,
   map_modifyAt_of_comp (·.segments) (fun p => { p with money := p.money + d })
     (fun _ => rfl) i r.people,
   modifyAt_length _ i r.people, rfl, rfl, rfl⟩

/-- The pay loop keeps the region shape (lifted to lists of people). -/
theorem payLoop_shape (n : String) (h w : ℚ) (workers : List Nat)
    (people : List Person) (m : ℚ) :
    (payLoop n h w workers people m).1.map (·.name) = people.map (·.name) ∧
    (payLoop n h w workers people m).1.map (·.laborHours) = people.map (·.laborHours) ∧
    (payLoop n h w workers people m).1.map (·.segments) = people.map (·.segments) ∧
    (payLoop n h w workers people m).1.length = people.length := by
  induction workers generalizing people m with
  | nil => exact ⟨rfl, rfl, rfl, rfl⟩
  | cons i rest ih =>
    rw [payLoop]
    obtain ⟨h1, h2, h3, h4⟩ := ih
      (modifyAt (fun p => { p with money := p.money + h * w }) i people) (m - h * w)
    refine ⟨?_, ?_, ?_, ?_⟩
    · rw [h1, map_modifyAt_of_comp (·.name)
        (fun p => { p with money := p.money + h * w }) (fun p => rfl) i people]
    · rw [h2, map_modifyAt_of_comp (·.laborHours)
        (fun p => { p with money := p.money + h * w }) (fun p => rfl) i people]
    · rw [h3, map_modifyAt_of_comp (·.segments)
        (fun p => { p with money := p.money + h * w }) (fun p => rfl) i people]
    · rw [h4, modifyAt_length]

/-- The refund loop keeps the region shape. -/
theorem refundLoop_shape (pays : List LaborPayment) (ps : List Person) (m : ℚ) :
    (refundLoop pays ps m).1.map (·.name) = ps.map (·.name) ∧
    (refundLoop pays ps m).1.map (·.laborHours) = ps.map (·.laborHours) ∧
    (refundLoop pays ps m).1.map (·.segments) = ps.map (·.segments) ∧
    (refundLoop pays ps m).1.length = ps.length := by
  induction pays generalizing ps m with
  | nil => exact ⟨rfl, rfl, rfl, rfl⟩
  | cons pay rest ih =>
    cases hfind : findIdxName pay.personName ps with
    | none =>
      simp only [refundLoop, hfind]
      exact ih ps m
    | some j =>
      simp only [refundLoop, hfind]
      obtain ⟨h1, h2, h3, h4⟩ := ih
        (modifyAt (fun p => { p with money := p.money - pay.totalPaid }) j ps)
        (m + pay.totalPaid)
      refine ⟨?_, ?_, ?_, ?_⟩
      · rw [h1, map_modifyAt_of_comp (·.name)
          (fun p => { p with money := p.money - pay.totalPaid }) (fun p => rfl) j ps]
      · rw [h2, map_modifyAt_of_comp (·.laborHours)
          (fun p => { p with money := p.money - pay.totalPaid }) (fun p => rfl) j ps]
      · rw [h3, map_modifyAt_of_comp (·.segments)
          (fun p => { p with money := p.money - pay.totalPaid }) (fun p => rfl) j ps]
      · rw [h4, modifyAt_length]

/-- The worker pool built by `getAvailableWorkers` consists of distinct
valid indices into the people list. -/
theorem getAvailableWorkers_spec (r : Region) :
    (∀ i ∈ getAvailableWorkers r, i < r.people.length) ∧
    (getAvailableWorkers r).Nodup := by
  unfold getAvailableWorkers
  split
  · have hsub : ((r.people.enum.filter (fun ip => isWorker ip.2)).map (·.1)).Sublist
        (r.people.enum.map (·.1)) :=
      (List.filter_sublist r.people.enum).map (·.1)
    have henum : r.people.enum.map (·.1) = List.range r.people.length := by
      simp [List.enum_map_fst]
    constructor
    · intro i hi
      have := hsub.mem hi
      rw [henum] at this
      simpa using this
    · exact (henum ▸ hsub).nodup (List.nodup_range _)
  · exact ⟨by intro i hi; simp at hi, List.nodup_nil⟩

/-- The refund name scan returns a valid index. -/
theorem findIdxName_lt (s : String) (l : List Person) (j : Nat)
    (h : findIdxName s l = some j) : j < l.length := by
  induction l generalizing j with
  | nil => simp [findIdxName] at h
  | cons a as ih =>
    rw [findIdxName] at h
    by_cases hp : (a.name == s) = true
    · rw [if_pos hp] at h
      cases h
      simp
    · rw [if_neg hp] at h
      cases hfind : findIdxName s as with
      | none => rw [hfind] at h; cases h
      | some k =>
        rw [hfind] at h
        cases h
        have := ih k hfind
        simp
        omega

/-- The market's first-matching-industry scan returns a valid index. -/
theorem findIndustryForProblem_lt (inds : List Industry) (p : Problem) (j : Nat)
    (h : findIndustryForProblem inds p = some j) : j < inds.length := by
  induction inds generalizing j with
  | nil => simp [findIndustryForProblem] at h
  | cons ind rest ih =>
    rw [findIndustryForProblem] at h
    by_cases hown : (ind.ownedProblems.any (fun q => q.id == p.id)) = true
    · rw [if_pos hown] at h
      cases h
      simp
    · rw [if_neg hown] at h
      cases hfind : findIndustryForProblem rest p with
      | none => rw [hfind] at h; cases h
      | some k =>
        rw [hfind] at h
        cases h
        have := ih k hfind
        simp
        omega

/-- A single purchase attempt conserves total money and the region
shape. -/
theorem attemptPurchase_conserves (r : Region) (pi ii : Nat) (need : Problem)
    (price : ℚ) (hpi : pi < r.people.length) (hii : ii < r.industries.length) :
    totalMoney (attemptPurchase r pi ii need price).1 = totalMoney r ∧
    SameShape r (attemptPurchase r pi ii need price).1 := by
  unfold attemptPurchase
  dsimp only
  cases houts : (r.industries.getD ii default).outputProducts with
  | nil => exact ⟨rfl, SameShape.refl r⟩
  | cons prod rest =>
    dsimp only
    by_cases h1 : r.qty prod.id < 1
    · rw [if_pos h1]
      exact ⟨rfl, SameShape.refl r⟩
    · rw [if_neg h1]
      by_cases h2 : (r.people.getD pi default).money < price
      · rw [if_pos h2]
        exact ⟨rfl, SameShape.refl r⟩
      · rw [if_neg h2]
        constructor
        · unfold totalMoney
          simp only
          rw [sum_map_modifyAt (·.money) (fun p => { p with money := p.money - price * 1 })
            (-(price * 1)) (fun a => sub_eq_add_neg _ _) pi r.people hpi]
          rw [sum_map_modifyAt (·.money) (fun i => { i with money := i.money + price * 1 })
            (price * 1) (fun a => rfl) ii r.industries hii]
          ring
        · refine ⟨?_, ?_, ?_, ?_, ?_, rfl, rfl⟩
          · exact map_modifyAt_of_comp (·.name)
              (fun p => { p with money := p.money - price * 1 }) (fun p => rfl) pi r.people
          · exact map_modifyAt_of_comp (·.laborHours)
              (fun p => { p with money := p.money - price * 1 }) (fun p => rfl) pi r.people
          · exact map_modifyAt_of_comp (·.segments)
              (fun p => { p with money := p.money - price * 1 }) (fun p => rfl) pi r.people
          · exact modifyAt_length _ pi r.people
          · exact modifyAt_length _ ii r.industries

/-- One need iteration conserves total money and the region shape. -/
theorem marketNeedStep_conserves (price : ℚ) (pi : Nat) (r : Region) (need : Problem)
    (hpi : pi < r.people.length) :
    totalMoney (marketNeedStep price pi r need).1 = totalMoney r ∧
    SameShape r (marketNeedStep price pi r need).1 := by
  unfold marketNeedStep
  cases hfind : findIndustryForProblem r.industries need with
  | none => exact ⟨rfl, SameShape.refl r⟩
  | some j =>
    exact attemptPurchase_conserves r pi j need price hpi
      (findIndustryForProblem_lt _ _ _ hfind)

/-- The whole need loop of one person conserves total money and shape. -/
theorem marketPersonLoop_conserves (price : ℚ) (pi : Nat) (needs : List Problem)
    (r : Region) (acc : List Purchase) (hpi : pi < r.people.length) :
    totalMoney (marketPersonLoop price pi needs r acc).1 = totalMoney r ∧
    SameShape r (marketPersonLoop price pi needs r acc).1 := by
  induction needs generalizing r acc with
  | nil => exact ⟨rfl, SameShape.refl r⟩
  | cons need rest ih =>
    obtain ⟨hm, hs⟩ := marketNeedStep_conserves price pi r need hpi
    have hpi2 : pi < (marketNeedStep price pi r need).1.people.length := by
      rw [hs.2.2.2.1]
      exact hpi
    cases hstep : (marketNeedStep price pi r need).2 with
    | none =>
      simp only [marketPersonLoop, hstep]
      obtain ⟨hm2, hs2⟩ := ih (marketNeedStep price pi r need).1 acc hpi2
      exact ⟨hm2.trans hm, hs.trans hs2⟩
    | some pur =>
      simp only [marketPersonLoop, hstep]
      obtain ⟨hm2, hs2⟩ := ih (marketNeedStep price pi r need).1 (acc ++ [pur]) hpi2
      exact ⟨hm2.trans hm, hs.trans hs2⟩

/-- The person loop of the market conserves total money and shape. -/
theorem marketLoop_conserves (price : ℚ) (idxs : List Nat) (r : Region)
    (res : MarketResult) (hval : ∀ i ∈ idxs, i < r.people.length) :
    totalMoney (marketLoop price idxs r res).1 = totalMoney r ∧
    SameShape r (marketLoop price idxs r res).1 := by
  induction idxs generalizing r res with
  | nil => exact ⟨rfl, SameShape.refl r⟩
  | cons i rest ih =>
    obtain ⟨hm, hs⟩ := marketPersonLoop_conserves price i
      (getAllProblems (r.people.getD i default)) r [] (hval i (by simp))
    simp only [marketLoop]
    obtain ⟨hm2, hs2⟩ := ih (marketPerson r i price).1 _
      (fun k hk => by
        show k < (marketPerson r i price).1.people.length
        unfold marketPerson
        rw [hs.2.2.2.1]
        exact hval k (by simp [hk]))
    refine ⟨?_, ?_⟩
    · calc totalMoney (marketLoop price rest (marketPerson r i price).1 _).1
          = totalMoney (marketPerson r i price).1 := hm2
        _ = totalMoney r := hm
    · exact SameShape.trans hs hs2

/-- `ProcessProductMarket` conserves total money and the region shape. -/
theorem processProductMarket_conserves (r : Region) (price : ℚ) :
    totalMoney (processProductMarket r price).1 = totalMoney r ∧
    SameShape r (processProductMarket r price).1 := by
  unfold processProductMarket
  dsimp only
  exact marketLoop_conserves price (List.range r.people.length) r _
    (fun i hi => List.mem_range.1 hi)

/-- Regeneration never touches money, people or industries. -/
theorem regenerate_money (r : Region) :
    totalMoney { r with qty := regenerateResources r.resources r.qty } = totalMoney r := rfl

set_option maxRecDepth 8000 in
/-- No branch of an industry iteration touches the region's resource or
segment lists. -/
theorem processIndustry_static (r : Region) (pool : List Nat) (idx : Nat)
    (h w : ℚ) :
    (processIndustry r pool idx h w).1.resources = r.resources ∧
    (processIndustry r pool idx h w).1.segments = r.segments := by
  unfold processIndustry
  dsimp only
  repeat' split
  all_goals exact ⟨rfl, rfl⟩

set_option maxRecDepth 8000 in
/-- One industry iteration of the production phase conserves total money,
keeps the region shape, and only ever drops a front segment of the worker
pool. -/
theorem processIndustry_invariants (r : Region) (pool : List Nat) (idx : Nat)
    (h w : ℚ) (hidx : idx < r.industries.length)
    (hnames : (r.people.map (·.name)).Nodup)
    (hpool : ∀ i ∈ pool, i < r.people.length) (hpoolnd : pool.Nodup) :
    totalMoney (processIndustry r pool idx h w).1 = totalMoney r ∧
    SameShape r (processIndustry r pool idx h w).1 ∧
    ∃ k, (processIndustry r pool idx h w).2.1 = pool.drop k := by
  have hstatic := processIndustry_static r pool idx h w
  by_cases halloc : (allocateWorkers (r.industries.getD idx default).laborNeeded pool).length = 0
  · simp only [processIndustry, if_pos halloc]
    refine ⟨?_, SameShape.refl r, 0, ?_⟩ <;> trivial
  · by_cases hpay : (r.industries.getD idx default).money
        < ((allocateWorkers (r.industries.getD idx default).laborNeeded pool).length : ℚ)
          * (h * w)
    · have hpayNone : payWorkers (r.industries.getD idx default).name r.people
          (r.industries.getD idx default).money
          (allocateWorkers (r.industries.getD idx default).laborNeeded pool) h w = none := by
        unfold payWorkers
        dsimp only
        rw [if_pos hpay]
      simp only [processIndustry, if_neg halloc, hpayNone]
      refine ⟨?_, SameShape.refl r, 0, ?_⟩ <;> trivial
    · have hpayEq : payWorkers (r.industries.getD idx default).name r.people
          (r.industries.getD idx default).money
          (allocateWorkers (r.industries.getD idx default).laborNeeded pool) h w
          = some (payLoop (r.industries.getD idx default).name h w
              (allocateWorkers (r.industries.getD idx default).laborNeeded pool)
              r.people (r.industries.getD idx default).money) := by
        unfold payWorkers
        dsimp only
        rw [if_neg hpay]
      obtain ⟨kk, hkk⟩ := allocateWorkers_take (r.industries.getD idx default).laborNeeded pool
      have hwval : ∀ i ∈ allocateWorkers (r.industries.getD idx default).laborNeeded pool,
          i < r.people.length := by
        intro i hi
        rw [hkk] at hi
        exact hpool i (List.mem_of_mem_take hi)
      rcases hc : consumeResources (r.industries.getD idx default).inputResources
          (calculateProduction (r.industries.getD idx default)
            ((allocateWorkers (r.industries.getD idx default).laborNeeded pool).length : ℚ)
            h w).unitsProduced r.qty with ⟨q1, o⟩
      cases o with
      | none =>
        have hspec := processIndustry_refund_spec r pool idx h w hnames hpool hpoolnd
          halloc hpay (by rw [hc])
        refine ⟨?_, ?_, 0, by rw [List.drop_zero]; exact hspec.2.2.2.1⟩
        · unfold totalMoney
          rw [hspec.1, hspec.2.1]
        · exact ⟨by rw [hspec.1], by rw [hspec.1], by rw [hspec.1],
            by rw [hspec.1], by rw [hspec.2.1], hstatic.1, hstatic.2⟩
      | some cs =>
        simp only [processIndustry, if_neg halloc, hpayEq, hc]
        obtain ⟨hn1, hn2, hn3, hn4⟩ := payLoop_shape (r.industries.getD idx default).name h w
          (allocateWorkers (r.industries.getD idx default).laborNeeded pool)
          r.people (r.industries.getD idx default).money
        refine ⟨?_, ⟨hn1, hn2, hn3, hn4, by rw [modifyAt_length], rfl, rfl⟩, _, rfl⟩
        unfold totalMoney
        simp only
        rw [payLoop_sum _ _ _ _ _ _ hwval]
        rw [sum_map_modifyAt_getD (·.money)
          (fun i => { i with money := (payLoop (r.industries.getD idx default).name h w
            (allocateWorkers (r.industries.getD idx default).laborNeeded pool)
            r.people (r.industries.getD idx default).money).2.1 }) idx r.industries hidx]
        simp only
        rw [payLoop_money]
        ring

/-- The industry loop of the production phase conserves total money and
the region shape. -/
theorem productionLoop_invariants (h w : ℚ) (idxs : List Nat) (r : Region)
    (pool : List Nat)
    (hidx : ∀ i ∈ idxs, i < r.industries.length)
    (hnames : (r.people.map (·.name)).Nodup)
    (hpool : ∀ i ∈ pool, i < r.people.length) (hpoolnd : pool.Nodup) :
    totalMoney (productionLoop h w idxs r pool).1 = totalMoney r ∧
    SameShape r (productionLoop h w idxs r pool).1 := by
  induction idxs generalizing r pool with
  | nil => exact ⟨rfl, SameShape.refl r⟩
  | cons i rest ih =>
    obtain ⟨hm, hs, k, hk⟩ := processIndustry_invariants r pool i h w
      (hidx i (by simp)) hnames hpool hpoolnd
    simp only [productionLoop]
    obtain ⟨hm2, hs2⟩ := ih (processIndustry r pool i h w).1
      (processIndustry r pool i h w).2.1
      (fun j hj => by rw [hs.2.2.2.2.1]; exact hidx j (by simp [hj]))
      (by rw [hs.1]; exact hnames)
      (fun j hj => by
        rw [hs.2.2.2.1]
        rw [hk] at hj
        exact hpool j (List.mem_of_mem_drop hj))
      (by rw [hk]; exact hpoolnd.sublist (List.drop_sublist k pool))
    exact ⟨hm2.trans hm, hs.trans hs2⟩

/-- The production phase conserves total money and the region shape. -/
theorem processProductionPhase_invariants (r : Region) (h w : ℚ)
    (hnames : (r.people.map (·.name)).Nodup) :
    totalMoney (processProductionPhase r h w).1 = totalMoney r ∧
    SameShape r (processProductionPhase r h w).1 := by
  unfold processProductionPhase
  exact productionLoop_invariants h w (List.range r.industries.length) r
    (getAvailableWorkers r) (fun i hi => List.mem_range.1 hi) hnames
    (getAvailableWorkers_spec r).1 (getAvailableWorkers_spec r).2

/-- Claim C1: money conservation.  For every region whose people have
pairwise-distinct names, the total money in the system (industry
treasuries plus person money) after a full engine tick equals the total
before it: wages, wage refunds and market purchases only transfer money
between an industry and a person. -/
theorem C1_processTick_conserves_money (r : Region) (wagePerHour : ℚ)
    (weeksPerTick : ℕ) (hoursPerWeek : ℚ)
    (hnames : (r.people.map (·.name)).Nodup) :
    totalMoney (processTick r wagePerHour weeksPerTick hoursPerWeek) = totalMoney r := by
  unfold processTick
  dsimp only
  obtain ⟨hm1, hs1⟩ := processProductionPhase_invariants r
    ((weeksPerTick : ℚ) * hoursPerWeek) wagePerHour hnames
  obtain ⟨hm2, hs2⟩ := processProductMarket_conserves
    (processProductionPhase r ((weeksPerTick : ℚ) * hoursPerWeek) wagePerHour).1 50
  calc totalMoney _ = totalMoney (processProductMarket
        (processProductionPhase r ((weeksPerTick : ℚ) * hoursPerWeek) wagePerHour).1 50).1 :=
        regenerate_money _
    _ = totalMoney (processProductionPhase r
          ((weeksPerTick : ℚ) * hoursPerWeek) wagePerHour).1 := hm2
    _ = totalMoney r := hm1

/-- Witness for C1 on a region exercising wages, production, a market
purchase and regeneration. -/
theorem C1_witness :
    (rC1.people.map (·.name)).Nodup ∧
    totalMoney (processTick rC1 10 4 40) = totalMoney rC1 :=
  ⟨by decide, C1_processTick_conserves_money rC1 10 4 40 (by decide)⟩

theorem getD_mem {α : Type _} [Inhabited α] (l : List α) (n : Nat)
    (h : n < l.length) : l.getD n default ∈ l := by
  rw [List.getD_eq_getElem l default h]
  exact List.getElem_mem h

theorem mem_modifyAt {α : Type _} [Inhabited α] (f : α → α) (i : Nat) (l : List α)
    (x : α) (hx : x ∈ modifyAt f i l) :
    x ∈ l ∨ (i < l.length ∧ x = f (l.getD i default)) := by
  induction l generalizing i with
  | nil => rw [modifyAt_nil] at hx; simp at hx
  | cons a as ih =>
    cases i with
    | zero =>
      rcases List.mem_cons.1 hx with h | h
      · exact Or.inr ⟨by simp, h⟩
      · exact Or.inl (List.mem_cons_of_mem a h)
    | succ i =>
      rcases List.mem_cons.1 hx with h | h
      · exact Or.inl (h ▸ List.mem_cons_self a as)
      · rcases ih i h with h2 | ⟨h2, h3⟩
        · exact Or.inl (List.mem_cons_of_mem a h2)
        · exact Or.inr ⟨by simpa using h2, h3⟩

/-- `ConsumeResources` only performs checked decrements, so the store
stays pointwise non-negative on every outcome. -/
theorem consumeResources_nonneg (inputs : List ResRef) (u : ℚ) (q : Nat → ℚ)
    (hq : ∀ j, 0 ≤ q j) : ∀ j, 0 ≤ (consumeResources inputs u q).1 j := by
  induction inputs generalizing q with
  | nil => exact hq
  | cons input rest ih =>
    by_cases h : q input.id < u
    · simpa [consumeResources, h] using hq
    · have hq2 : ∀ j, 0 ≤ updQty q input.id (q input.id - u) j := by
        intro j
        by_cases hji : j = input.id
        · rw [hji, updQty_self]
          rw [not_lt] at h
          exact sub_nonneg.2 h
        · rw [updQty_ne _ _ _ _ hji]
          exact hq j
      intro j
      have := ih (updQty q input.id (q input.id - u)) hq2 j
      rcases hsub : consumeResources rest u (updQty q input.id (q input.id - u)) with ⟨q2, o⟩
      rw [hsub] at this
      cases o with
      | none => simpa [consumeResources, h, hsub] using this
      | some cs => simpa [consumeResources, h, hsub] using this

/-- A non-empty allocation means the truncated labor need was positive,
hence the labor need itself is positive. -/
theorem allocateWorkers_pos_labor {α : Type _} (L : ℚ) (pool : List α)
    (h : (allocateWorkers L pool).length ≠ 0) : 0 < L := by
  unfold allocateWorkers at h
  dsimp only at h
  by_cases hc : (if (pool.length : ℤ) < ratTrunc L then (pool.length : ℤ) else ratTrunc L) ≤ 0
  · rw [if_pos hc] at h
    simp at h
  · push_neg at hc
    have htr : 0 < ratTrunc L := by
      by_cases hlt : (pool.length : ℤ) < ratTrunc L
      · rw [if_pos hlt] at hc
        omega
      · rwa [if_neg hlt] at hc
    by_contra hL
    push_neg at hL
    have hnum : L.num ≤ 0 := Rat.num_nonpos.2 hL
    have hdiv : L.num.tdiv (L.den : ℤ) ≤ 0 := by
      have he : L.num = -(-L.num) := by ring
      rw [he, Int.neg_tdiv]
      exact Int.neg_nonpos_of_nonneg (Int.tdiv_nonneg (by omega) (by positivity))
    rw [ratTrunc] at htr
    omega

/-- Production output is non-negative for non-negative labor, hours and
labor need. -/
theorem unitsProduced_nonneg (ind : Industry) (a h w : ℚ)
    (ha : 0 ≤ a) (hh : 0 ≤ h) (hL : 0 ≤ ind.laborNeeded) :
    0 ≤ (calculateProduction ind a h w).unitsProduced := by
  unfold calculateProduction
  dsimp only
  by_cases hz : ind.laborNeeded = 0
  · simp [hz]
  · rw [if_neg hz]
    have hused : 0 ≤ (if a < ind.laborNeeded then a else ind.laborNeeded) := by
      split_ifs
      · exact ha
      · exact hL
    exact mul_nonneg (div_nonneg hused hL) hh

/-- Adding production output to every product keeps the store
non-negative. -/
theorem outputAdd_nonneg (outs : List ResRef) (u : ℚ) (q : Nat → ℚ)
    (hu : 0 ≤ u) (hq : ∀ j, 0 ≤ q j) :
    ∀ j, 0 ≤ (outs.foldl (fun q prod => updQty q prod.id (q prod.id + u)) q) j := by
  induction outs generalizing q with
  | nil => exact hq
  | cons o rest ih =>
    refine ih (updQty q o.id (q o.id + u)) ?_
    intro j
    by_cases hj : j = o.id
    · rw [hj, updQty_self]
      exact add_nonneg (hq o.id) hu
    · rw [updQty_ne _ _ _ _ hj]
      exact hq j

/-- Paying wages keeps every person's balance non-negative for a
non-negative wage bill rate. -/
theorem payLoop_people_nonneg (n : String) (h w : ℚ) (workers : List Nat)
    (people : List Person) (m : ℚ) (hhw : 0 ≤ h * w)
    (hp : ∀ p ∈ people, 0 ≤ p.money) :
    ∀ p ∈ (payLoop n h w workers people m).1, 0 ≤ p.money := by
  intro p hpmem
  obtain ⟨j, hj, hget⟩ := List.getElem_of_mem hpmem
  rw [payLoop_length] at hj
  have := payLoop_getD n h w workers people m j hj
  rw [List.getD_eq_getElem _ default (by rw [payLoop_length]; exact hj), hget] at this
  rw [this]
  simp only
  have h0 : 0 ≤ (people.getD j default).money := hp _ (getD_mem people j hj)
  positivity

/-- A purchase attempt keeps the region non-negative for a non-negative
price. -/
theorem attemptPurchase_nonneg (r : Region) (pi ii : Nat) (need : Problem)
    (price : ℚ) (hpi : pi < r.people.length) (hii : ii < r.industries.length)
    (hprice : 0 ≤ price) (hnn : NonNeg r) :
    NonNeg (attemptPurchase r pi ii need price).1 := by
  unfold attemptPurchase
  dsimp only
  cases houts : (r.industries.getD ii default).outputProducts with
  | nil => exact hnn
  | cons prod rest =>
    dsimp only
    by_cases h1 : r.qty prod.id < 1
    · rw [if_pos h1]
      exact hnn
    · rw [if_neg h1]
      by_cases h2 : (r.people.getD pi default).money < price
      · rw [if_pos h2]
        exact hnn
      · rw [if_neg h2]
        refine ⟨?_, ?_, ?_⟩
        · intro j
          by_cases hj : j = prod.id
          · rw [hj]
            simp only [updQty_self]
            rw [not_lt] at h1
            linarith
          · simp only [updQty_ne _ _ _ _ hj]
            exact hnn.1 j
        · intro ind hind
          rcases mem_modifyAt _ ii r.industries ind hind with hmem | ⟨_, he⟩
          · exact hnn.2.1 ind hmem
          · rw [he]
            simp only
            have := hnn.2.1 _ (getD_mem r.industries ii hii)
            linarith
        · intro p hpm
          rcases mem_modifyAt _ pi r.people p hpm with hmem | ⟨_, he⟩
          · exact hnn.2.2 p hmem
          · rw [he]
            simp only
            rw [not_lt] at h2
            linarith

/-- One market need step keeps the region non-negative. -/
theorem marketNeedStep_nonneg (price : ℚ) (pi : Nat) (r : Region) (need : Problem)
    (hpi : pi < r.people.length) (hprice : 0 ≤ price) (hnn : NonNeg r) :
    NonNeg (marketNeedStep price pi r need).1 := by
  unfold marketNeedStep
  cases hfind : findIndustryForProblem r.industries need with
  | none => exact hnn
  | some j =>
    exact attemptPurchase_nonneg r pi j need price hpi
      (findIndustryForProblem_lt _ _ _ hfind) hprice hnn

/-- The need loop of one person keeps the region non-negative. -/
theorem marketPersonLoop_nonneg (price : ℚ) (pi : Nat) (needs : List Problem)
    (r : Region) (acc : List Purchase) (hpi : pi < r.people.length)
    (hprice : 0 ≤ price) (hnn : NonNeg r) :
    NonNeg (marketPersonLoop price pi needs r acc).1 := by
  induction needs generalizing r acc with
  | nil => exact hnn
  | cons need rest ih =>
    have hs := (marketNeedStep_conserves price pi r need hpi).2
    have hpi2 : pi < (marketNeedStep price pi r need).1.people.length := by
      rw [hs.2.2.2.1]
      exact hpi
    have hnn2 := marketNeedStep_nonneg price pi r need hpi hprice hnn
    cases hstep : (marketNeedStep price pi r need).2 with
    | none =>
      simp only [marketPersonLoop, hstep]
      exact ih _ _ hpi2 hnn2
    | some pur =>
      simp only [marketPersonLoop, hstep]
      exact ih _ _ hpi2 hnn2

/-- The market person loop keeps the region non-negative. -/
theorem marketLoop_nonneg (price : ℚ) (idxs : List Nat) (r : Region)
    (res : MarketResult) (hval : ∀ i ∈ idxs, i < r.people.length)
    (hprice : 0 ≤ price) (hnn : NonNeg r) :
    NonNeg (marketLoop price idxs r res).1 := by
  induction idxs generalizing r res with
  | nil => exact hnn
  | cons i rest ih =>
    have hs := (marketPersonLoop_conserves price i
      (getAllProblems (r.people.getD i default)) r [] (hval i (by simp))).2
    simp only [marketLoop]
    refine ih (marketPerson r i price).1 _ ?_ ?_
    · intro k hk
      show k < (marketPerson r i price).1.people.length
      unfold marketPerson
      rw [hs.2.2.2.1]
      exact hval k (by simp [hk])
    · exact marketPersonLoop_nonneg price i _ r [] (hval i (by simp)) hprice hnn

/-- `ProcessProductMarket` keeps the region non-negative. -/
theorem processProductMarket_nonneg (r : Region) (price : ℚ)
    (hprice : 0 ≤ price) (hnn : NonNeg r) :
    NonNeg (processProductMarket r price).1 := by
  unfold processProductMarket
  dsimp only
  exact marketLoop_nonneg price (List.range r.people.length) r _
    (fun i hi => List.mem_range.1 hi) hprice hnn

/-- Regeneration only adds positive amounts. -/
theorem regenerateResources_nonneg (resources : List ResRef) (q : Nat → ℚ)
    (hq : ∀ j, 0 ≤ q j) : ∀ j, 0 ≤ regenerateResources resources q j := by
  induction resources generalizing q with
  | nil => exact hq
  | cons res rest ih =>
    unfold regenerateResources at *
    simp only [List.foldl_cons]
    by_cases h : 0 < res.regenerationRate
    · rw [if_pos h]
      refine ih _ ?_
      intro j
      by_cases hj : j = res.id
      · rw [hj, updQty_self]
        have := hq res.id
        linarith
      · rw [updQty_ne _ _ _ _ hj]
        exact hq j
    · rw [if_neg h]
      exact ih q hq

set_option maxRecDepth 8000 in
/-- One industry iteration keeps the region non-negative, for
non-negative hours and wage rate. -/
theorem processIndustry_nonneg (r : Region) (pool : List Nat) (idx : Nat)
    (h w : ℚ) (hidx : idx < r.industries.length)
    (hnames : (r.people.map (·.name)).Nodup)
    (hpool : ∀ i ∈ pool, i < r.people.length) (hpoolnd : pool.Nodup)
    (hh : 0 ≤ h) (hw : 0 ≤ w) (hnn : NonNeg r) :
    NonNeg (processIndustry r pool idx h w).1 := by
  by_cases halloc : (allocateWorkers (r.industries.getD idx default).laborNeeded pool).length = 0
  · simp only [processIndustry, if_pos halloc]
    exact hnn
  · by_cases hpay : (r.industries.getD idx default).money
        < ((allocateWorkers (r.industries.getD idx default).laborNeeded pool).length : ℚ)
          * (h * w)
    · have hpayNone : payWorkers (r.industries.getD idx default).name r.people
          (r.industries.getD idx default).money
          (allocateWorkers (r.industries.getD idx default).laborNeeded pool) h w = none := by
        unfold payWorkers
        dsimp only
        rw [if_pos hpay]
      simp only [processIndustry, if_neg halloc, hpayNone]
      exact hnn
    · have hpayEq : payWorkers (r.industries.getD idx default).name r.people
          (r.industries.getD idx default).money
          (allocateWorkers (r.industries.getD idx default).laborNeeded pool) h w
          = some (payLoop (r.industries.getD idx default).name h w
              (allocateWorkers (r.industries.getD idx default).laborNeeded pool)
              r.people (r.industries.getD idx default).money) := by
        unfold payWorkers
        dsimp only
        rw [if_neg hpay]
      have hunits : 0 ≤ (calculateProduction (r.industries.getD idx default)
          ((allocateWorkers (r.industries.getD idx default).laborNeeded pool).length : ℚ)
          h w).unitsProduced :=
        unitsProduced_nonneg _ _ _ _ (by positivity) hh
          (le_of_lt (allocateWorkers_pos_labor _ pool halloc))
      rcases hc : consumeResources (r.industries.getD idx default).inputResources
          (calculateProduction (r.industries.getD idx default)
            ((allocateWorkers (r.industries.getD idx default).laborNeeded pool).length : ℚ)
            h w).unitsProduced r.qty with ⟨q1, o⟩
      have hq1nn : ∀ j, 0 ≤ q1 j := by
        intro j
        have := consumeResources_nonneg (r.industries.getD idx default).inputResources
          (calculateProduction (r.industries.getD idx default)
            ((allocateWorkers (r.industries.getD idx default).laborNeeded pool).length : ℚ)
            h w).unitsProduced r.qty hnn.1 j
        rw [hc] at this
        exact this
      cases o with
      | none =>
        have hspec := processIndustry_refund_spec r pool idx h w hnames hpool hpoolnd
          halloc hpay (by rw [hc])
        refine ⟨?_, ?_, ?_⟩
        · intro j
          rw [hspec.2.2.2.2.2, hc]
          exact hq1nn j
        · rw [hspec.2.1]
          exact hnn.2.1
        · rw [hspec.1]
          exact hnn.2.2
      | some cs =>
        simp only [processIndustry, if_neg halloc, hpayEq, hc]
        refine ⟨?_, ?_, ?_⟩
        · exact outputAdd_nonneg _ _ _ hunits hq1nn
        · intro ind hind
          rcases mem_modifyAt _ idx r.industries ind hind with hmem | ⟨_, he⟩
          · exact hnn.2.1 ind hmem
          · rw [he]
            simp only
            rw [payLoop_money]
            rw [not_lt] at hpay
            linarith
        · exact payLoop_people_nonneg _ _ _ _ _ _ (mul_nonneg hh hw) hnn.2.2

/-- The production loop keeps the region non-negative. -/
theorem productionLoop_nonneg (h w : ℚ) (idxs : List Nat) (r : Region)
    (pool : List Nat)
    (hidx : ∀ i ∈ idxs, i < r.industries.length)
    (hnames : (r.people.map (·.name)).Nodup)
    (hpool : ∀ i ∈ pool, i < r.people.length) (hpoolnd : pool.Nodup)
    (hh : 0 ≤ h) (hw : 0 ≤ w) (hnn : NonNeg r) :
    NonNeg (productionLoop h w idxs r pool).1 := by
  induction idxs generalizing r pool with
  | nil => exact hnn
  | cons i rest ih =>
    obtain ⟨hm, hs, k, hk⟩ := processIndustry_invariants r pool i h w
      (hidx i (by simp)) hnames hpool hpoolnd
    simp only [productionLoop]
    refine ih (processIndustry r pool i h w).1 (processIndustry r pool i h w).2.1
      (fun j hj => by rw [hs.2.2.2.2.1]; exact hidx j (by simp [hj]))
      (by rw [hs.1]; exact hnames)
      (fun j hj => by
        rw [hs.2.2.2.1]
        rw [hk] at hj
        exact hpool j (List.mem_of_mem_drop hj))
      (by rw [hk]; exact hpoolnd.sublist (List.drop_sublist k pool))
      (processIndustry_nonneg r pool i h w (hidx i (by simp)) hnames hpool hpoolnd hh hw hnn)

/-- Claim C4: non-negativity.  Each committed operation — resource
consumption (checked decrements), a market purchase, regeneration, a full
industry iteration (wage payment, refund on failure, production commit),
and the whole engine tick — maps a region with non-negative resource
quantities, industry treasuries and person balances (with distinct
person names and non-negative wage and hour parameters) to a region
satisfying the same bounds. -/
theorem C4_nonneg_preserved :
    (∀ (inputs : List ResRef) (u : ℚ) (q : Nat → ℚ), (∀ j, 0 ≤ q j) →
      ∀ j, 0 ≤ (consumeResources inputs u q).1 j) ∧
    (∀ (r : Region) (pi ii : Nat) (need : Problem) (price : ℚ),
      pi < r.people.length → ii < r.industries.length → 0 ≤ price → NonNeg r →
      NonNeg (attemptPurchase r pi ii need price).1) ∧
    (∀ (resources : List ResRef) (q : Nat → ℚ), (∀ j, 0 ≤ q j) →
      ∀ j, 0 ≤ regenerateResources resources q j) ∧
    (∀ (r : Region) (pool : List Nat) (idx : Nat) (h w : ℚ),
      idx < r.industries.length → (r.people.map (·.name)).Nodup →
      (∀ i ∈ pool, i < r.people.length) → pool.Nodup → 0 ≤ h → 0 ≤ w →
      NonNeg r → NonNeg (processIndustry r pool idx h w).1) ∧
    (∀ (r : Region) (wagePerHour : ℚ) (weeksPerTick : ℕ) (hoursPerWeek : ℚ),
      (r.people.map (·.name)).Nodup → 0 ≤ wagePerHour → 0 ≤ hoursPerWeek →
      NonNeg r → NonNeg (processTick r wagePerHour weeksPerTick hoursPerWeek)) := by
  refine ⟨consumeResources_nonneg, attemptPurchase_nonneg,
    regenerateResources_nonneg, processIndustry_nonneg, ?_⟩
  intro r wagePerHour weeksPerTick hoursPerWeek hnames hwage hhpw hnn
  unfold processTick
  dsimp only
  have hhours : (0 : ℚ) ≤ (weeksPerTick : ℚ) * hoursPerWeek := by positivity
  have h1 : NonNeg (processProductionPhase r
      ((weeksPerTick : ℚ) * hoursPerWeek) wagePerHour).1 := by
    unfold processProductionPhase
    exact productionLoop_nonneg _ _ _ r (getAvailableWorkers r)
      (fun i hi => List.mem_range.1 hi) hnames (getAvailableWorkers_spec r).1
      (getAvailableWorkers_spec r).2 hhours hwage hnn
  have h2 : NonNeg (processProductMarket (processProductionPhase r
      ((weeksPerTick : ℚ) * hoursPerWeek) wagePerHour).1 50).1 :=
    processProductMarket_nonneg _ 50 (by norm_num) h1
  exact ⟨regenerateResources_nonneg _ _ h2.1, h2.2.1, h2.2.2⟩

/-- Witness for C4: a full tick on the two-person region keeps
everything non-negative. -/
theorem C4_witness :
    NonNeg rC1 ∧ NonNeg (processTick rC1 10 4 40) := by
  have hnn : NonNeg rC1 := by
    refine ⟨?_, by decide, by decide⟩
    intro j
    show (0 : ℚ) ≤ (if j = 7 then 1000 else 0)
    split_ifs <;> norm_num
  exact ⟨hnn, C4_nonneg_preserved.2.2.2.2 rC1 10 4 40 (by decide)
    (by norm_num) (by norm_num) hnn⟩

/-- The satisfied-people counter grows by at most one per person. -/
theorem marketLoop_satisfied_le (price : ℚ) (idxs : List Nat) (r : Region)
    (res : MarketResult) :
    (marketLoop price idxs r res).2.peopleSatisfied
      ≤ res.peopleSatisfied + idxs.length := by
  induction idxs generalizing r res with
  | nil => simp [marketLoop]
  | cons i rest ih =>
    simp only [marketLoop]
    refine le_trans (ih _ _) ?_
    simp only [List.length_cons]
    split_ifs <;> omega

/-- Claim C6 counterexample: industry `B` (index 1) also owns the
person's need, its product (id 11) has 5 ≥ 1 units, and the person could
afford two units at price 50 — yet the market makes exactly one purchase
and `B` earns nothing, because each need only ever reaches the FIRST
matching industry and only its FIRST product.  This refutes "for every
industry that owns that need ... and for every output product ... exactly
one purchase is attempted". -/
theorem C6_counterexample :
    (processProductMarket rC6 50).2.purchases.length = 1 ∧
    ((processProductMarket rC6 50).1.industries.getD 1 default).money = 0 ∧
    ((rC6.industries.getD 1 default).ownedProblems.any (fun p => p.id == 1)) = true ∧
    rC6.qty 11 = 5 ∧
    (rC6.people.getD 0 default).money = 100 := by
  refine ⟨by decide, by decide, by decide, by decide, by decide⟩

/-- Claim C6 (amended): in one market tick, for every person and every
need in the deduplicated effective need set, at most ONE purchase of
exactly 1 unit is attempted — against the first industry in region order
owning the need, and only against its first output product — succeeding
iff `product.quantity ≥ 1` and `person.money ≥ price`; on success the
price moves from the person to that industry and the product quantity
drops by 1.  The per-tick result still counts distinct people with at
least one successful purchase as satisfied and the rest as unsatisfied
(the two tallies always sum to the population size). -/
theorem C6_market_single_attempt_per_need (r : Region) (pi : Nat) (need : Problem)
    (price : ℚ) (hpi : pi < r.people.length) :
    (findIndustryForProblem r.industries need = none →
      marketNeedStep price pi r need = (r, none)) ∧
    (∀ ii, findIndustryForProblem r.industries need = some ii →
      ii < r.industries.length ∧
      marketNeedStep price pi r need = attemptPurchase r pi ii need price ∧
      ((r.industries.getD ii default).outputProducts = [] →
        attemptPurchase r pi ii need price = (r, none)) ∧
      (∀ prod rest, (r.industries.getD ii default).outputProducts = prod :: rest →
        (r.qty prod.id < 1 → attemptPurchase r pi ii need price = (r, none)) ∧
        ((r.people.getD pi default).money < price →
          attemptPurchase r pi ii need price = (r, none)) ∧
        (¬ r.qty prod.id < 1 → ¬ (r.people.getD pi default).money < price →
          (attemptPurchase r pi ii need price).2
              = some ⟨pi, ii, prod.id, need.id, 1, price, price * 1⟩ ∧
          ((attemptPurchase r pi ii need price).1.people.getD pi default).money
              = (r.people.getD pi default).money - price * 1 ∧
          ((attemptPurchase r pi ii need price).1.industries.getD ii default).money
              = (r.industries.getD ii default).money + price * 1 ∧
          (attemptPurchase r pi ii need price).1.qty prod.id = r.qty prod.id - 1))) ∧
    (processProductMarket r price).2.peopleSatisfied
        + (processProductMarket r price).2.peopleUnsatisfied = r.people.length := by
  refine ⟨?_, ?_, ?_⟩
  · intro hfind
    unfold marketNeedStep
    rw [hfind]
  · intro ii hfind
    have hii := findIndustryForProblem_lt _ _ _ hfind
    refine ⟨hii, ?_, ?_, ?_⟩
    · unfold marketNeedStep
      rw [hfind]
    · intro houts
      unfold attemptPurchase
      dsimp only
      rw [houts]
    · intro prod rest houts
      refine ⟨?_, ?_, ?_⟩
      · intro h1
        unfold attemptPurchase
        dsimp only
        rw [houts]
        dsimp only
        rw [if_pos h1]
      · intro h2
        unfold attemptPurchase
        dsimp only
        rw [houts]
        dsimp only
        by_cases h1 : r.qty prod.id < 1
        · rw [if_pos h1]
        · rw [if_neg h1, if_pos h2]
      · intro h1 h2
        unfold attemptPurchase
        dsimp only
        rw [houts]
        dsimp only
        rw [if_neg h1, if_neg h2]
        refine ⟨rfl, ?_, ?_, ?_⟩
        · simp only
          rw [getD_modifyAt_self _ _ _ _ hpi]
        · simp only
          rw [getD_modifyAt_self _ _ _ _ hii]
        · simp only [updQty_self]
  · unfold processProductMarket
    dsimp only
    have hle := marketLoop_satisfied_le 50 (List.range r.people.length) r
      { purchases := [], totalSpent := 0, totalRevenue := 0,
        peopleSatisfied := 0, peopleUnsatisfied := 0 }
    have hle2 := marketLoop_satisfied_le price (List.range r.people.length) r
      { purchases := [], totalSpent := 0, totalRevenue := 0,
        peopleSatisfied := 0, peopleUnsatisfied := 0 }
    simp only [List.length_range] at hle2
    omega

/-- Witness for C6 on the two-industry region: the step for the person's
need is exactly one purchase attempt against industry 0, and the
satisfied/unsatisfied tallies sum to the population. -/
theorem C6_witness :
    marketNeedStep 50 0 rC6 ⟨1, "Food", 1⟩ = attemptPurchase rC6 0 0 ⟨1, "Food", 1⟩ 50 ∧
    (processProductMarket rC6 50).2.peopleSatisfied
        + (processProductMarket rC6 50).2.peopleUnsatisfied = rC6.people.length :=
  ⟨((C6_market_single_attempt_per_need rC6 0 ⟨1, "Food", 1⟩ 50 (by decide)).2.1 0
      (by decide)).2.1,
   (C6_market_single_attempt_per_need rC6 0 ⟨1, "Food", 1⟩ 50 (by decide)).2.2⟩

set_option maxRecDepth 8000 in
/-- Every branch reports the allocation `AllocateWorkers` computed from
the incoming pool. -/
theorem processIndustry_alloc (r : Region) (pool : List Nat) (idx : Nat) (h w : ℚ) :
    (processIndustry r pool idx h w).2.2.1
      = allocateWorkers (r.industries.getD idx default).laborNeeded pool := by
  unfold processIndustry
  dsimp only
  repeat' split
  all_goals rfl

set_option maxRecDepth 8000 in
/-- Only a fully successful iteration advances the pool, and then by
exactly the allocated workers. -/
theorem processIndustry_pool_of_success (r : Region) (pool : List Nat) (idx : Nat)
    (h w : ℚ) (hflag : (processIndustry r pool idx h w).2.2.2 = true) :
    (processIndustry r pool idx h w).2.1
      = pool.drop (allocateWorkers (r.industries.getD idx default).laborNeeded pool).length := by
  revert hflag
  unfold processIndustry
  dsimp only
  repeat' split
  all_goals intro hflag
  all_goals first
    | rfl
    | (exfalso; simp at hflag)

/-- A front segment of a duplicate-free list is disjoint from the
corresponding remainder. -/
theorem take_disjoint_drop {α : Type _} (l : List α) (n : Nat) (hnd : l.Nodup) :
    ∀ x ∈ l.take n, x ∉ l.drop n := by
  have hsplit : l.take n ++ l.drop n = l := List.take_append_drop n l
  rw [← hsplit] at hnd
  exact fun x hx => (List.nodup_append.1 hnd).2.2 hx

/-- A take of a list is the take of its own length. -/
theorem take_length_take {α : Type _} (l : List α) (k : Nat) :
    l.take ((l.take k).length) = l.take k := by
  rw [List.length_take]
  rcases le_or_lt k l.length with h | h
  · rw [min_eq_left h]
  · rw [min_eq_right (le_of_lt h)]
    rw [List.take_of_length_le (le_refl _), List.take_of_length_le (le_of_lt h)]

/-- When every industry iteration succeeds, the reported allocations are
pairwise disjoint and drawn from the pool. -/
theorem productionLoop_alloc_pairwise (h w : ℚ) (idxs : List Nat) (r : Region)
    (pool : List Nat) (hnd : pool.Nodup)
    (hsucc : ((productionLoop h w idxs r pool).2.2.2).all (fun b => b = true) = true) :
    ((productionLoop h w idxs r pool).2.2.1).Pairwise (fun a b => ∀ x ∈ a, x ∉ b) ∧
    (∀ a ∈ (productionLoop h w idxs r pool).2.2.1, ∀ x ∈ a, x ∈ pool) := by
  induction idxs generalizing r pool with
  | nil => exact ⟨List.Pairwise.nil, by intro a ha; simp [productionLoop] at ha⟩
  | cons i rest ih =>
    simp only [productionLoop, List.all_cons, Bool.and_eq_true, decide_eq_true_eq] at hsucc
    obtain ⟨hflag, hrest⟩ := hsucc
    have hpool1 := processIndustry_pool_of_success r pool i h w hflag
    obtain ⟨k, hk⟩ := allocateWorkers_take (r.industries.getD i default).laborNeeded pool
    have hnd1 : (processIndustry r pool i h w).2.1.Nodup := by
      rw [hpool1]
      exact hnd.sublist (List.drop_sublist _ pool)
    obtain ⟨hpair, hsub⟩ := ih (processIndustry r pool i h w).1
      (processIndustry r pool i h w).2.1 hnd1 hrest
    simp only [productionLoop]
    constructor
    · refine List.Pairwise.cons ?_ hpair
      intro b hb x hx
      rw [processIndustry_alloc, hk] at hx
      intro hxb
      have hxpool1 := hsub b hb x hxb
      rw [hpool1, hk, List.length_take] at hxpool1
      have hx2 : x ∈ pool.take ((pool.take k).length) := by
        rw [take_length_take]
        exact hx
      rw [List.length_take] at hx2
      exact take_disjoint_drop pool (min k pool.length) hnd x hx2 hxpool1
    · intro a ha x hx
      rcases List.mem_cons.1 ha with rfl | ha2
      · rw [processIndustry_alloc, hk] at hx
        exact List.mem_of_mem_take hx
      · have := hsub a ha2 x hx
        rw [hpool1] at this
        exact List.mem_of_mem_drop this

/-- Claim C7 (amended): `AllocateWorkers` takes a front segment of the
pool (original order), of length at most both the pool size and the
(non-negative) labor need, and a zero labor need allocates nobody.  But
the orchestrator removes an industry's allocated workers from the pool
only at the end of a fully successful iteration, so the no-double-
allocation guarantee holds only for ticks in which every industry
iteration succeeds; after a wage or resource failure the same workers
can be allocated again to a later industry. -/
theorem C7_allocation_bounds (L : ℚ) (pool : List Nat) :
    (∃ k, allocateWorkers L pool = pool.take k) ∧
    (allocateWorkers L pool).length ≤ pool.length ∧
    (0 ≤ L → ((allocateWorkers L pool).length : ℚ) ≤ L) ∧
    (L = 0 → allocateWorkers L pool = []) ∧
    (∀ (r : Region) (h w : ℚ),
      ((processProductionPhase r h w).2.2.2).all (fun b => b = true) = true →
      ((processProductionPhase r h w).2.2.1).Pairwise (fun a b => ∀ x ∈ a, x ∉ b)) := by
  refine ⟨allocateWorkers_take L pool, ?_, ?_, ?_, ?_⟩
  · obtain ⟨k, hk⟩ := allocateWorkers_take L pool
    rw [hk, List.length_take]
    exact min_le_right _ _
  · intro hL
    unfold allocateWorkers
    dsimp only
    by_cases hc : (if (pool.length : ℤ) < ratTrunc L then (pool.length : ℤ) else ratTrunc L) ≤ 0
    · rw [if_pos hc]
      simpa using hL
    · rw [if_neg hc]
      push_neg at hc
      have htr : ratTrunc L = ⌊L⌋ := ratTrunc_eq_floor L hL
      have hle : (if (pool.length : ℤ) < ratTrunc L then (pool.length : ℤ) else ratTrunc L)
          ≤ ratTrunc L := by
        split_ifs with hlt
        · exact le_of_lt hlt
        · exact le_refl _
      have h1 : ((pool.take (if (pool.length : ℤ) < ratTrunc L then (pool.length : ℤ)
          else ratTrunc L).toNat).length : ℚ)
          ≤ (((if (pool.length : ℤ) < ratTrunc L then (pool.length : ℤ)
            else ratTrunc L).toNat : ℕ) : ℚ) := by
        rw [List.length_take]
        exact_mod_cast min_le_left _ _
      refine le_trans h1 ?_
      have h2 : (((if (pool.length : ℤ) < ratTrunc L then (pool.length : ℤ)
          else ratTrunc L).toNat : ℤ) : ℚ) ≤ ((⌊L⌋ : ℤ) : ℚ) := by
        have : ((if (pool.length : ℤ) < ratTrunc L then (pool.length : ℤ)
            else ratTrunc L).toNat : ℤ) ≤ ⌊L⌋ := by
          rw [← htr]
          omega
        exact_mod_cast this
      refine le_trans ?_ (le_trans h2 (Int.floor_le L))
      push_cast
      exact le_refl _
  · intro hL
    subst hL
    rfl
  · intro r h w hsucc
    exact (productionLoop_alloc_pairwise h w (List.range r.industries.length) r
      (getAvailableWorkers r) (getAvailableWorkers_spec r).2 hsucc).1

/-- Claim C7 counterexample: worker 0 appears in the allocations of BOTH
industries in the same tick, because industry `A`'s failed wage
settlement leaves the pool untouched. -/
theorem C7_counterexample :
    (processProductionPhase rC7 160 10).2.2.1.getD 0 [] = [0] ∧
    (processProductionPhase rC7 160 10).2.2.1.getD 1 [] = [0] :=
  ⟨by decide, by decide⟩

/-- Witness for the amended C7: concrete prefix/length/zero-need facts
and pairwise-disjoint allocations on an all-successful tick. -/
theorem C7_witness :
    (∃ k, allocateWorkers 5 ([10, 11, 12] : List Nat) = [10, 11, 12].take k) ∧
    ((0 : ℚ) ≤ 5 ∧ ((allocateWorkers 5 ([10, 11, 12] : List Nat)).length : ℚ) ≤ 5) ∧
    ((5 : ℚ) = 5) ∧
    (((processProductionPhase rC7b 160 10).2.2.2).all (fun b => b = true) = true ∧
      ((processProductionPhase rC7b 160 10).2.2.1).Pairwise (fun a b => ∀ x ∈ a, x ∉ b)) :=
  ⟨(C7_allocation_bounds 5 [10, 11, 12]).1,
   ⟨by norm_num, (C7_allocation_bounds 5 [10, 11, 12]).2.2.1 (by norm_num)⟩,
   rfl,
   ⟨by decide, (C7_allocation_bounds 5 [10, 11, 12]).2.2.2.2 rC7b 160 10 (by decide)⟩⟩

/-- Claim C9 counterexample: the current engine's tick does not reset
labor-hours — a person entering with 3 labor-hours still has 3 (not the
standard 8) after the tick. -/
theorem C9_counterexample :
    ((processTick rC9 10 4 40).people.getD 0 default).laborHours = 3 ∧
    ((3 : ℚ) ≠ 8) :=
  ⟨by decide, by norm_num⟩

/-- Claim C9 (amended): the current engine's tick (`engine_new` /
`part_007`) never reads or writes labor-hours, so every person leaves the
tick with exactly the labor-hours they entered with; only the legacy
engine's `resetLaborHours` (part_006, invoked at the end of ITS tick)
resets every person's labor-hours to the standard 8-hour workday. -/
theorem C9_laborHours_not_reset (r : Region) (wagePerHour : ℚ)
    (weeksPerTick : ℕ) (hoursPerWeek : ℚ)
    (hnames : (r.people.map (·.name)).Nodup) :
    (processTick r wagePerHour weeksPerTick hoursPerWeek).people.map (·.laborHours)
        = r.people.map (·.laborHours) ∧
    ∀ p ∈ (resetLaborHours r).people, p.laborHours = 8 := by
  constructor
  · unfold processTick
    dsimp only
    obtain ⟨hm1, hs1⟩ := processProductionPhase_invariants r
      ((weeksPerTick : ℚ) * hoursPerWeek) wagePerHour hnames
    obtain ⟨hm2, hs2⟩ := processProductMarket_conserves
      (processProductionPhase r ((weeksPerTick : ℚ) * hoursPerWeek) wagePerHour).1 50
    exact hs2.2.1.trans hs1.2.1
  · intro p hp
    unfold resetLaborHours at hp
    simp only at hp
    rcases List.mem_map.1 hp with ⟨q, hq, rfl⟩
    rfl

/-- Witness for the amended C9 on the concrete region: the tick keeps
the 3 labor-hours, the legacy reset yields 8. -/
theorem C9_witness :
    (rC9.people.map (·.name)).Nodup ∧
    (processTick rC9 10 4 40).people.map (·.laborHours)
        = rC9.people.map (·.laborHours) ∧
    ∀ p ∈ (resetLaborHours rC9).people, p.laborHours = 8 :=
  ⟨by decide,
   (C9_laborHours_not_reset rC9 10 4 40 (by decide)).1,
   (C9_laborHours_not_reset rC9 10 4 40 (by decide)).2⟩

end Westex
